import Mathlib

/-!
# gosortedmap: a sorted map on an AVL tree

A shallow embedding of `src/sortedmap.go`.

Conventions of the embedding.

* A Go `*node` is a value of the inductive type `node`: `node.nil` is the nil
  pointer, `node.mk` a pointer to a struct.  The Go code mutates nodes in
  place and returns the new root; every mutated node is owned by exactly one
  parent, so a function here returns the rebuilt subtree.
* A run-time panic (nil dereference, a panicking `CompareTo`, `==` on an
  uncomparable dynamic type, a failed type assertion) is `none`.
* `height` is a Go `int` that only ever receives `1` or `1 + ` a child height;
  it is a natural number here, and the difference taken by `bfactor` is an
  integer.
* The value `nil` of `interface{}` is `default` of the value type.
* Keys are interface values.  The tree compares them with the method
  `CompareTo` and, in `split`, with the built-in `!=`; both are operations of
  the key type here (`Comparable.CompareTo`, `Comparable.identical`).
* Arithmetic of the tests on Go `int` values (the subtraction of the
  comparator, the product `val*2`) wraps around at 64 bits: `wrapInt`.
-/

namespace gosortedmap

/-! ## Machine integers -/

/-- The value of Go's `int` (64 bits) that an integer result wraps around to. -/
def wrapInt (x : Int) : Int :=
  (x + 9223372036854775808) % 18446744073709551616 - 9223372036854775808

/-- The integer is a value of Go's `int`: it lies in `[-2^63, 2^63)`. -/
def IsGoInt (x : Int) : Prop :=
  -9223372036854775808 ≤ x ∧ x < 9223372036854775808

instance decIsGoInt (x : Int) : Decidable (IsGoInt x) :=
  inferInstanceAs (Decidable (_ ∧ _))

/-! ## Keys -/

/-- The Go interface `Comparable`, as the operations the tree performs on key
values: the method `CompareTo` (receiver first, argument second), which is user
code and may panic, and the built-in `==` of interface values, which panics
when both operands have the same uncomparable dynamic type. -/
structure Comparable (K : Type) where
  /-- Method `CompareTo`: negative, zero or positive. -/
  CompareTo : K → K → Option Int
  /-- Go `==` on two key values held in interfaces. -/
  identical : K → K → Option Bool

/-- The result of `CompareTo` when it does not panic (and `0` when it does). -/
def Comparable.cmp {K : Type} (ops : Comparable K) (a b : K) : Int :=
  (ops.CompareTo a b).getD 0

/-- A lawful three-way comparison: `CompareTo` never panics, swapping the
operands swaps the sign, and `≤` is transitive. -/
structure Lawful {K : Type} (ops : Comparable K) : Prop where
  total : ∀ a b, ops.CompareTo a b = some (ops.cmp a b)
  symm : ∀ a b, ops.cmp a b < 0 ↔ 0 < ops.cmp b a
  le_trans : ∀ a b c, ops.cmp a b ≤ 0 → ops.cmp b c ≤ 0 → ops.cmp a c ≤ 0

/-- Key values on which `==` is usable: it never panics, and two keys that are
`==` compare equal. -/
structure IdentityOK {K : Type} (ops : Comparable K) : Prop where
  total : ∀ a b, ∃ r, ops.identical a b = some r
  sound : ∀ a b, ops.identical a b = some true → ops.cmp a b = 0

/-! ## Nodes -/

/-- Struct `Entry`: a key-value pair produced by a traversal. -/
structure Entry (K V : Type) where
  Key : K
  Value : V
deriving DecidableEq, Repr

/-- Struct `node` behind a `*node` pointer. -/
inductive node (K V : Type) where
  | nil : node K V
  | mk (key : K) (value : V) (height : Nat) (left right : node K V) : node K V
deriving DecidableEq, Repr

variable {K V : Type}

/-- Function `height`. -/
def height : node K V → Nat
  | .nil => 0
  | .mk _ _ h _ _ => h

/-- Function `bfactor`. -/
def bfactor : node K V → Int
  | .nil => 0
  | .mk _ _ _ l r => (height r : Int) - (height l : Int)

/-- Function `fixHeight`. -/
def fixHeight : node K V → node K V
  | .nil => .nil
  | .mk k v _ l r =>
    if height l > height r then .mk k v (1 + height l) l r
    else .mk k v (1 + height r) l r

/-- Function `rotateLeft`. -/
def rotateLeft : node K V → Option (node K V)
  | .nil => none
  | .mk _ _ _ _ .nil => none
  | .mk k v h l (.mk mk mv mh ml mr) =>
    let n := fixHeight (.mk k v h l ml)
    some (fixHeight (.mk mk mv mh n mr))

/-- Function `rotateRight`. -/
def rotateRight : node K V → Option (node K V)
  | .nil => none
  | .mk _ _ _ .nil _ => none
  | .mk k v h (.mk mk mv mh ml mr) r =>
    let n := fixHeight (.mk k v h mr r)
    some (fixHeight (.mk mk mv mh ml n))

/-- Function `balance`. -/
def balance (n : node K V) : Option (node K V) :=
  match fixHeight n with
  | .nil => some .nil
  | .mk k v h l r =>
    if bfactor (.mk k v h l r) = 2 then
      if bfactor r < 0 then do
        let m ← rotateRight r
        rotateLeft (.mk k v h l m)
      else rotateLeft (.mk k v h l r)
    else if bfactor (.mk k v h l r) = -2 then
      if bfactor l > 0 then do
        let m ← rotateLeft l
        rotateRight (.mk k v h m r)
      else rotateRight (.mk k v h l r)
    else some (.mk k v h l r)

/-- Function `insert`.  The source evaluates `k.CompareTo(n.key)` a second
time in the `else if`; the comparison is a function of its operands and is
bound once. -/
def insert (ops : Comparable K) : node K V → K → V → Option (node K V)
  | .nil, k, v => some (.mk k v 1 .nil .nil)
  | .mk nk nv h l r, k, v => do
    let c ← ops.CompareTo k nk
    if c < 0 then do
      let l' ← insert ops l k v
      balance (.mk nk nv h l' r)
    else if c > 0 then do
      let r' ← insert ops r k v
      balance (.mk nk nv h l r')
    else balance (.mk nk v h l r)

/-- Function `findMin`: the leftmost node. -/
def findMin : node K V → Option (node K V)
  | .nil => none
  | .mk k v h .nil r => some (.mk k v h .nil r)
  | .mk _ _ _ (.mk lk lv lh ll lr) _ => findMin (.mk lk lv lh ll lr)

/-- Function `removeMin`. -/
def removeMin : node K V → Option (node K V)
  | .nil => none
  | .mk _ _ _ .nil r => some r
  | .mk k v h (.mk lk lv lh ll lr) r => do
    let l' ← removeMin (.mk lk lv lh ll lr)
    balance (.mk k v h l' r)

/-- Number of nodes of a tree. -/
def size : node K V → Nat
  | .nil => 0
  | .mk _ _ _ l r => size l + 1 + size r

/-- Function `merge`. -/
def merge : node K V → node K V → Option (node K V)
  | .nil, m => some m
  | .mk nk nv nh nl nr, .nil => some (.mk nk nv nh nl nr)
  | .mk nk nv nh nl nr, .mk mk mv mh ml mr =>
    if nh > mh then do
      let t ← merge nr (.mk mk mv mh ml mr)
      balance (.mk nk nv nh nl t)
    else if nh + 1 < mh then do
      let t ← merge (.mk nk nv nh nl nr) ml
      balance (.mk mk mv mh t mr)
    else do
      let r ← findMin (.mk mk mv mh ml mr)
      let m ← removeMin (.mk mk mv mh ml mr)
      match r with
      | .nil => none
      | .mk rk rv rh _ _ => balance (.mk rk rv rh (.mk nk nv nh nl nr) m)
termination_by n m => size n + size m
decreasing_by
  all_goals simp_wf
  all_goals simp only [size]
  all_goals omega

/-- Function `inOrderSlice`. -/
def inOrderSlice : node K V → List (Entry K V) → List (Entry K V)
  | .nil, res => res
  | .mk k v _ l r, res =>
    let res := inOrderSlice l res
    let res := res ++ [⟨k, v⟩]
    inOrderSlice r res

/-- Function `split`; its parameter `in` is `incl` here.  The condition
`n.key != k || in` evaluates `n.key != k` first, whatever `in` is. -/
def split (ops : Comparable K) : node K V → K → Bool → Option (node K V × node K V)
  | .nil, _, _ => some (.nil, .nil)
  | .mk nk nv _ l r, k, incl => do
    let c ← ops.CompareTo nk k
    if c < 0 then do
      let (t1, t2) ← split ops r k incl
      let t1 ← merge l t1
      let t1 ← insert ops t1 nk nv
      pure (t1, t2)
    else do
      let (t1, t2) ← split ops l k incl
      let t2 ← merge t2 r
      let same ← ops.identical nk k
      if !same || incl then do
        let t2 ← insert ops t2 nk nv
        pure (t1, t2)
      else pure (t1, t2)

/-- Function `remove`. -/
def remove (ops : Comparable K) : node K V → K → Option (node K V)
  | .nil, _ => some .nil
  | .mk nk nv h l r, k => do
    let (t1, t2) ← split ops (.mk nk nv h l r) k false
    merge t1 t2

/-- Function `find`. -/
def find [Inhabited V] (ops : Comparable K) : node K V → K → Option (V × Bool)
  | .nil, _ => some (default, false)
  | .mk nk nv _ l r, k => do
    let c ← ops.CompareTo k nk
    if c < 0 then find ops l k
    else if c > 0 then find ops r k
    else some (nv, true)

/-! ## Invariants -/

/-- The in-order entry sequence of a tree: what `inOrderSlice` appends. -/
def entries : node K V → List (Entry K V)
  | .nil => []
  | .mk k v _ l r => entries l ++ ⟨k, v⟩ :: entries r

/-- The keys of a tree, in order. -/
def keys (t : node K V) : List K := (entries t).map Entry.Key

/-- BST order: at every node the keys of the left subtree compare less than
the node's key and the keys of the right subtree compare greater. -/
def BST (ops : Comparable K) : node K V → Prop
  | .nil => True
  | .mk k _ _ l r =>
    (∀ x ∈ keys l, ops.cmp x k < 0) ∧ (∀ x ∈ keys r, 0 < ops.cmp x k) ∧
      BST ops l ∧ BST ops r

/-- Key uniqueness: no two entries of the tree have keys that compare equal. -/
def KeyUnique (ops : Comparable K) (t : node K V) : Prop :=
  (entries t).Pairwise (fun a b => ops.cmp a.Key b.Key ≠ 0)

/-- Strictly increasing keys along a sequence of entries. -/
def StrictlyIncreasing (ops : Comparable K) (es : List (Entry K V)) : Prop :=
  es.Pairwise (fun a b => ops.cmp a.Key b.Key < 0)

/-- Height consistency: every stored height is one more than the larger child
height. -/
def HeightConsistent : node K V → Prop
  | .nil => True
  | .mk _ _ h l r =>
    h = 1 + max (height l) (height r) ∧ HeightConsistent l ∧ HeightConsistent r

/-- AVL balance: every balance factor lies in `[-1, 1]`. -/
def AVLBalanced : node K V → Prop
  | .nil => True
  | .mk k v h l r =>
    (-1 ≤ bfactor (.mk k v h l r) ∧ bfactor (.mk k v h l r) ≤ 1) ∧
      AVLBalanced l ∧ AVLBalanced r

instance decBST [DecidableEq K] (ops : Comparable K) : (t : node K V) → Decidable (BST ops t)
  | .nil => isTrue trivial
  | .mk k _ _ l r =>
    have := decBST ops l
    have := decBST ops r
    inferInstanceAs (Decidable ((∀ x ∈ keys l, ops.cmp x k < 0) ∧
      (∀ x ∈ keys r, 0 < ops.cmp x k) ∧ BST ops l ∧ BST ops r))

instance decKeyUnique (ops : Comparable K) (t : node K V) : Decidable (KeyUnique ops t) :=
  inferInstanceAs (Decidable (List.Pairwise _ _))

instance decStrictlyIncreasing (ops : Comparable K) (es : List (Entry K V)) :
    Decidable (StrictlyIncreasing ops es) :=
  inferInstanceAs (Decidable (List.Pairwise _ _))

instance decHeightConsistent : (t : node K V) → Decidable (HeightConsistent t)
  | .nil => isTrue trivial
  | .mk _ _ h l r =>
    have := decHeightConsistent l
    have := decHeightConsistent r
    inferInstanceAs (Decidable (h = 1 + max (height l) (height r) ∧
      HeightConsistent l ∧ HeightConsistent r))

instance decAVLBalanced : (t : node K V) → Decidable (AVLBalanced t)
  | .nil => isTrue trivial
  | .mk k v h l r =>
    have := decAVLBalanced l
    have := decAVLBalanced r
    inferInstanceAs (Decidable ((-1 ≤ bfactor (.mk k v h l r) ∧
      bfactor (.mk k v h l r) ≤ 1) ∧ AVLBalanced l ∧ AVLBalanced r))

/-! ## Specification-level definitions -/

/-- Height consistency and AVL balance together, node by node. -/
def Avl : node K V → Prop
  | .nil => True
  | .mk _ _ h l r =>
    h = 1 + max (height l) (height r) ∧ height l ≤ height r + 1 ∧
      height r ≤ height l + 1 ∧ Avl l ∧ Avl r

/-- Insertion into a sequence of entries with increasing keys: what `insert`
does to the in-order sequence.  An entry whose key compares equal keeps its
stored key and receives the new value. -/
def insertEntry (ops : Comparable K) (k : K) (v : V) : List (Entry K V) → List (Entry K V)
  | [] => [⟨k, v⟩]
  | e :: es =>
    if ops.cmp k e.Key < 0 then ⟨k, v⟩ :: e :: es
    else if 0 < ops.cmp k e.Key then e :: insertEntry ops k v es
    else ⟨e.Key, v⟩ :: es

/-- Lookup in a sequence of entries: the first entry whose key compares equal. -/
def lookupEntry [Inhabited V] (ops : Comparable K) (k : K) : List (Entry K V) → V × Bool
  | [] => (default, false)
  | e :: es => if ops.cmp k e.Key = 0 then (e.Value, true) else lookupEntry ops k es

/-- The shape of a tree: its keys and stored heights, values erased. -/
def shape : node K V → node K Unit
  | .nil => .nil
  | .mk k _ h l r => .mk k () h (shape l) (shape r)

/-- Entries whose key compares less than `k`: the first tree of `split`. -/
def belowKey (ops : Comparable K) (k : K) (e : Entry K V) : Bool :=
  decide (ops.cmp e.Key k < 0)

/-- Entries that `split` keeps in its second tree: the key does not compare
less than `k`, and either it is not `==` to `k` or the flag `in` is set. -/
def keptAbove (ops : Comparable K) (k : K) (incl : Bool) (e : Entry K V) : Bool :=
  decide (¬ ops.cmp e.Key k < 0) && (!(ops.identical e.Key k == some true) || incl)

/-- Entries that `remove` keeps: the key is not `==` to the removed key. -/
def notIdentical (ops : Comparable K) (k : K) (e : Entry K V) : Bool :=
  !(ops.identical e.Key k == some true)

/-- The `==` of the key values agrees with the comparison: it never panics and
holds exactly for keys that compare equal. -/
def IdentityAgrees (ops : Comparable K) : Prop :=
  ∀ a b, ops.identical a b = some (decide (ops.cmp a b = 0))

/-- One more than the least number of nodes of a height-consistent, balanced
tree of height `h`. -/
def minNodes : Nat → Nat
  | 0 => 1
  | 1 => 2
  | h + 2 => minNodes (h + 1) + minNodes h

/-! ## Concrete key types -/

/-- Integer keys in their numerical order, with `==` the equality of integers:
a key type with a lawful comparison whose values are comparable in Go.  The
difference is that of the integers and does not wrap around; the comparison of
Go `int`s by a wrapping subtraction is `goIntKey`. -/
def intKey : Comparable Int where
  CompareTo a b := some (a - b)
  identical a b := some (decide (a = b))

/-! ## The container -/

/-- A key as an interface value: the raw key itself (dynamic type `A`), or the
struct `comparableWrapper` around it.  The field `comp` of a wrapper is always
the comparator of the map that built it and is not repeated here. -/
inductive Key (A : Type) where
  | raw (a : A) : Key A
  | wrapped (value : A) : Key A
deriving DecidableEq, Repr

/-- Type `Comparator`: a Go function over two `interface{}` values; it may
panic (a type assertion on an operand of the wrong dynamic type). -/
abbrev Comparator (A : Type) := Key A → Key A → Option Int

/-- What the dynamic type of the raw keys provides. -/
structure KeyType (A : Type) where
  /-- The method `CompareTo` of a raw key, `none` when its type does not
  implement `Comparable`. -/
  CompareTo : A → Option (Key A → Option Int)
  /-- Go `==` on two raw keys. -/
  identical : A → A → Option Bool

/-- Struct `SortedMap`; a nil comparator is `none`. -/
structure SortedMap (A V : Type) where
  tree : node (Key A) V
  comp : Option (Comparator A)

/-- Method `comparableWrapper.CompareTo`: `cw.comp(cw.value, another)`. -/
def comparableWrapper.CompareTo {A : Type} (comp : Option (Comparator A)) (value : A)
    (another : Key A) : Option Int :=
  match comp with
  | none => none
  | some c => c (.raw value) another

/-- The operations of the key values of a map: `CompareTo` dispatches on the
dynamic type; `==` on two wrappers panics, because the struct
`comparableWrapper` has a field of function type and is not comparable, and
`==` on values of different dynamic types is false. -/
def keyOps {A : Type} (T : KeyType A) (comp : Option (Comparator A)) : Comparable (Key A) where
  CompareTo x another :=
    match x with
    | .wrapped value => comparableWrapper.CompareTo comp value another
    | .raw a =>
      match T.CompareTo a with
      | none => none
      | some m => m another
  identical x y :=
    match x, y with
    | .raw a, .raw b => T.identical a b
    | .wrapped _, .wrapped _ => none
    | _, _ => some false

/-- Method `SortedMap.makeKeyComparable`. -/
def SortedMap.makeKeyComparable {A : Type} (T : KeyType A) (sm : SortedMap A V) (key : A) :
    Option (Key A) :=
  match sm.comp with
  | some _ => some (.wrapped key)
  | none =>
    match T.CompareTo key with
    | none => none
    | some _ => some (.raw key)

/-- Function `NewSortedMap`. -/
def NewSortedMap {A : Type} (comp : Option (Comparator A)) : SortedMap A V :=
  { tree := .nil, comp := comp }

/-- Method `SortedMap.Get`. -/
def SortedMap.Get {A : Type} [Inhabited V] (T : KeyType A) (sm : SortedMap A V) (key : A) :
    Option (V × Bool) := do
  let k ← sm.makeKeyComparable T key
  find (keyOps T sm.comp) sm.tree k

/-- Method `SortedMap.Set`: it takes a key only, calls `find` and drops the
result; the map is returned as it was. -/
def SortedMap.Set {A : Type} [Inhabited V] (T : KeyType A) (sm : SortedMap A V) (key : A) :
    Option (SortedMap A V) := do
  let k ← sm.makeKeyComparable T key
  let _ ← find (keyOps T sm.comp) sm.tree k
  pure sm

/-- Method `SortedMap.Delete`. -/
def SortedMap.Delete {A : Type} (T : KeyType A) (sm : SortedMap A V) (key : A) :
    Option (SortedMap A V) := do
  let k ← sm.makeKeyComparable T key
  let t ← remove (keyOps T sm.comp) sm.tree k
  pure { sm with tree := t }

/-- Method `SortedMap.AsSlice`. -/
def SortedMap.AsSlice {A : Type} (sm : SortedMap A V) : List (Entry (Key A) V) :=
  inOrderSlice sm.tree []

/-- An operation performed on a channel of entries. -/
inductive ChanOp (K V : Type) where
  | send (e : Entry K V) : ChanOp K V
  | close : ChanOp K V
deriving DecidableEq, Repr

/-- Function `inOrderChan`, as the operations it performs on the channel `res`,
in order. -/
def inOrderChan : node K V → List (ChanOp K V)
  | .nil => []
  | .mk k v _ l r => inOrderChan l ++ ChanOp.send ⟨k, v⟩ :: inOrderChan r

/-- Method `SortedMap.AsChan`: the operations of the goroutine
`go inOrderChan(sm.tree, ch)` on the unbuffered channel it returns.  Nothing
else writes to the channel or closes it. -/
def SortedMap.AsChan {A : Type} (sm : SortedMap A V) : List (ChanOp (Key A) V) :=
  inOrderChan sm.tree

/-- A consumer `for ent := range ch` against a producer that performs the
given operations: it receives every entry sent, and finishes when the channel
is closed.  When the producer stops without closing the channel the loop
blocks for ever: `none`. -/
def rangeLoop : List (ChanOp K V) → Option (List (Entry K V))
  | [] => none
  | .close :: _ => some []
  | .send e :: ops => (rangeLoop ops).map (fun es => e :: es)

/-- The entries a producer sends, whether or not a consumer ever finishes. -/
def sent : List (ChanOp K V) → List (Entry K V)
  | [] => []
  | .close :: _ => []
  | .send e :: ops => e :: sent ops

/-- Modelled from the spec: the method `Len`, which the tests call and
`src/sortedmap.go` does not define; the struct `SortedMap` has no count field.
By the spec's count consistency the element count of a container is the number
of nodes of its tree. -/
def SortedMap.Len {A : Type} (sm : SortedMap A V) : Nat :=
  size sm.tree

/-! ## Models of the tests, further key types -/

/-- The comparator of `createIntMap` in the tests: `a.(int) - b.(int)`.  Each
type assertion panics on a value that is not an `int`; the subtraction is that
of Go's `int` and wraps around. -/
def intComparator : Comparator Int
  | .raw a, .raw b => some (wrapInt (a - b))
  | _, _ => none

/-- A comparator that copes with the way this version calls it: the first
operand is a raw `int`, the second arrives wrapped in a `comparableWrapper`. -/
def wrapperComparator : Comparator Int
  | .raw a, .wrapped b => some (wrapInt (a - b))
  | _, _ => none

/-- The raw key type `int`: no method `CompareTo`, comparable with `==`. -/
def intType : KeyType Int where
  CompareTo _ := none
  identical a b := some (decide (a = b))

/-- Keys of a struct type `struct{ id, tag int }` whose `CompareTo` compares
the field `id` only, while `==` compares both fields. -/
def taggedKey : Comparable (Int × Int) where
  CompareTo a b := some (a.1 - b.1)
  identical a b := some (decide (a = b))

/-- Keys ordered like the integers whose dynamic type Go cannot compare with
`==`: a struct with a field of slice, map or function type, for example
`struct{ id int; tags []string }` with a `CompareTo` on `id`.  The struct
`comparableWrapper`, which `makeKeyComparable` builds for every map with a
comparator, is such a type. -/
def uncomparableKey : Comparable Int where
  CompareTo a b := some (a - b)
  identical _ _ := none

/-- An operation of the randomized test on the tree. -/
inductive TreeOp (K V : Type) where
  | set (k : K) (v : V) : TreeOp K V
  | delete (k : K) : TreeOp K V
deriving DecidableEq, Repr

/-- One operation applied to the tree: `insert` or `remove`. -/
def applyOp (ops : Comparable K) (t : node K V) : TreeOp K V → Option (node K V)
  | .set k v => insert ops t k v
  | .delete k => remove ops t k

/-- A sequence of operations applied from the empty tree. -/
def runOps (ops : Comparable K) (os : List (TreeOp K V)) : Option (node K V) :=
  os.foldlM (applyOp ops) .nil

/-- The reference map of the randomized test, an unordered list of entries
with at most one entry per key: `hm[key] = value` and `delete(hm, key)`. -/
def refApply (ops : Comparable K) (m : List (Entry K V)) : TreeOp K V → List (Entry K V)
  | .set k v =>
    if m.any (fun e => ops.cmp k e.Key = 0) then
      m.map (fun e => if ops.cmp k e.Key = 0 then ⟨e.Key, v⟩ else e)
    else ⟨k, v⟩ :: m
  | .delete k => m.filter (fun e => !decide (ops.cmp k e.Key = 0))

/-- The reference map after a sequence of operations, from the empty map. -/
def refRun (ops : Comparable K) (os : List (TreeOp K V)) : List (Entry K V) :=
  os.foldl (refApply ops) []

/-- The reference lookup `hm[key]`. -/
def refLookup [Inhabited V] (ops : Comparable K) (m : List (Entry K V)) (k : K) : V × Bool :=
  lookupEntry ops k m

/-- The sorted dump of the reference map: its entries by ascending key. -/
def sortedDump (ops : Comparable K) (m : List (Entry K V)) : List (Entry K V) :=
  m.insertionSort (fun a b => ops.cmp a.Key b.Key ≤ 0)

/-- A one-node tree with key `1`. -/
def leafOne : node Int String := .mk 1 "a" 1 .nil .nil

/-- A height-consistent, balanced tree with the keys `3, 5, 6, 7`. -/
def treeThreeToSeven : node Int String :=
  .mk 5 "e" 3 (.mk 3 "c" 1 .nil .nil) (.mk 7 "g" 2 (.mk 6 "f" 1 .nil .nil) .nil)

/-! ## Basic facts -/

theorem wrapInt_zero : wrapInt 0 = 0 := by decide

theorem avl_iff (t : node K V) : Avl t ↔ HeightConsistent t ∧ AVLBalanced t := by
  induction t with
  | nil => simp [Avl, HeightConsistent, AVLBalanced]
  | mk k v h l r ihl ihr =>
    simp only [Avl, HeightConsistent, AVLBalanced, bfactor, ihl, ihr]
    constructor
    · rintro ⟨h1, h2, h3, ⟨h4, h5⟩, h6, h7⟩
      exact ⟨⟨h1, h4, h6⟩, ⟨by omega, by omega⟩, h5, h7⟩
    · rintro ⟨⟨h1, h4, h6⟩, ⟨_, _⟩, h5, h7⟩
      exact ⟨h1, by omega, by omega, ⟨h4, h5⟩, h6, h7⟩

@[simp]
theorem height_nil : height (node.nil : node K V) = 0 := rfl

@[simp]
theorem height_mk (k : K) (v : V) (h : Nat) (l r : node K V) :
    height (.mk k v h l r) = h := rfl

@[simp]
theorem bfactor_nil : bfactor (node.nil : node K V) = 0 := rfl

@[simp]
theorem bfactor_mk (k : K) (v : V) (h : Nat) (l r : node K V) :
    bfactor (.mk k v h l r) = (height r : Int) - (height l : Int) := rfl

theorem fixHeight_mk (k : K) (v : V) (h : Nat) (l r : node K V) :
    fixHeight (.mk k v h l r) = .mk k v (1 + max (height l) (height r)) l r := by
  simp only [fixHeight]
  split_ifs with hc
  · rw [max_eq_left (by omega)]
  · rw [max_eq_right (by omega)]

theorem inOrderSlice_eq (t : node K V) (res : List (Entry K V)) :
    inOrderSlice t res = res ++ entries t := by
  induction t generalizing res with
  | nil => simp [inOrderSlice, entries]
  | mk k v h l r ihl ihr => simp [inOrderSlice, entries, ihl, ihr]

theorem size_eq_length (t : node K V) : size t = (entries t).length := by
  induction t with
  | nil => rfl
  | mk k v h l r ihl ihr =>
    simp only [size, entries, List.length_append, List.length_cons, ihl, ihr]
    omega

theorem forall_keys (t : node K V) (P : K → Prop) :
    (∀ x ∈ keys t, P x) ↔ ∀ e ∈ entries t, P e.Key := by
  simp [keys]

theorem minNodes_mono (h : Nat) : minNodes h ≤ minNodes (h + 1) := by
  induction h using Nat.strong_induction_on with
  | _ h ih =>
    match h with
    | 0 => simp [minNodes]
    | h + 1 => simp only [minNodes]; omega

theorem two_pow_le_minNodes_sq : ∀ h : Nat, 2 ^ h ≤ minNodes h ^ 2
  | 0 => by simp [minNodes]
  | 1 => by simp [minNodes]
  | h + 2 => by
    have ih := two_pow_le_minNodes_sq h
    have hm := minNodes_mono h
    have h2 : 2 * minNodes h ≤ minNodes (h + 2) := by simp only [minNodes]; omega
    calc 2 ^ (h + 2) = 4 * 2 ^ h := by ring
      _ ≤ 4 * minNodes h ^ 2 := by omega
      _ = (2 * minNodes h) ^ 2 := by ring
      _ ≤ minNodes (h + 2) ^ 2 := Nat.pow_le_pow_left h2 2

theorem minNodes_le_size (t : node K V) (ha : Avl t) : minNodes (height t) ≤ size t + 1 := by
  induction t with
  | nil => simp [minNodes, size]
  | mk k v h l r ihl ihr =>
    simp only [Avl] at ha
    obtain ⟨a1, a2, a3, a4, a5⟩ := ha
    have hl := ihl a4
    have hr := ihr a5
    simp only [height_mk, size]
    rcases Nat.lt_or_ge (height l) (height r) with c | c
    · -- the right subtree is the taller one
      have e1 : height r = height l + 1 := by omega
      have e2 : h = height l + 2 := by omega
      rw [e1] at hr
      rw [e2]
      simp only [minNodes]
      omega
    · rcases Nat.eq_or_lt_of_le c with c' | c'
      · have e2 : h = height r + 1 := by omega
        rw [← c'] at hl
        rw [e2]
        have := minNodes_mono (height r)
        rcases hr0 : height r with _ | n
        · rw [hr0] at hl hr; simp only [minNodes] at hl hr ⊢; omega
        · rw [hr0] at hl hr
          have := minNodes_mono n
          simp only [minNodes] at hl hr ⊢
          omega
      · have e1 : height l = height r + 1 := by omega
        have e2 : h = height r + 2 := by omega
        rw [e1] at hl
        rw [e2]
        simp only [minNodes]
        omega

theorem two_pow_height_le (t : node K V) (ha : Avl t) : 2 ^ height t ≤ (size t + 1) ^ 2 :=
  le_trans (two_pow_le_minNodes_sq (height t)) (Nat.pow_le_pow_left (minNodes_le_size t ha) 2)

/-! ## Lawful comparisons -/

namespace Lawful

variable {ops : Comparable K}

theorem pos_iff (hl : Lawful ops) (a b : K) : 0 < ops.cmp a b ↔ ops.cmp b a < 0 :=
  (hl.symm b a).symm

theorem nonneg_iff (hl : Lawful ops) (a b : K) : 0 ≤ ops.cmp a b ↔ ops.cmp b a ≤ 0 := by
  have := hl.symm a b
  constructor <;> intro h <;> omega

theorem cmp_self (hl : Lawful ops) (a : K) : ops.cmp a a = 0 := by
  have := hl.symm a a
  omega

theorem eq_symm (hl : Lawful ops) {a b : K} (h : ops.cmp a b = 0) : ops.cmp b a = 0 := by
  have h1 := hl.symm a b
  have h2 := hl.symm b a
  omega

theorem lt_of_lt_of_le (hl : Lawful ops) {a b c : K} (h1 : ops.cmp a b < 0)
    (h2 : ops.cmp b c ≤ 0) : ops.cmp a c < 0 := by
  by_contra hn
  have h3 : ops.cmp c a ≤ 0 := (hl.nonneg_iff a c).1 (by omega)
  have h4 := hl.le_trans b c a h2 h3
  have h5 := hl.symm a b
  omega

theorem lt_of_le_of_lt (hl : Lawful ops) {a b c : K} (h1 : ops.cmp a b ≤ 0)
    (h2 : ops.cmp b c < 0) : ops.cmp a c < 0 := by
  by_contra hn
  have h3 : ops.cmp c a ≤ 0 := (hl.nonneg_iff a c).1 (by omega)
  have h4 := hl.le_trans c a b h3 h1
  have h5 := hl.symm b c
  omega

theorem lt_trans (hl : Lawful ops) {a b c : K} (h1 : ops.cmp a b < 0)
    (h2 : ops.cmp b c < 0) : ops.cmp a c < 0 :=
  hl.lt_of_lt_of_le h1 (by omega)

/-- Keys that compare equal are interchangeable as right operands. -/
theorem cmp_congr_right (hl : Lawful ops) {a b : K} (h : ops.cmp a b = 0) (c : K) :
    (ops.cmp c a < 0 ↔ ops.cmp c b < 0) ∧ (ops.cmp c a = 0 ↔ ops.cmp c b = 0) ∧
      (0 < ops.cmp c a ↔ 0 < ops.cmp c b) := by
  have hba := hl.eq_symm h
  have p1 : ops.cmp c a < 0 → ops.cmp c b < 0 := fun x => hl.lt_of_lt_of_le x (by omega)
  have p2 : ops.cmp c b < 0 → ops.cmp c a < 0 := fun x => hl.lt_of_lt_of_le x (by omega)
  have p3 : 0 < ops.cmp c a → 0 < ops.cmp c b := fun x =>
    (hl.pos_iff c b).2 (hl.lt_of_le_of_lt (by omega) ((hl.pos_iff c a).1 x))
  have p4 : 0 < ops.cmp c b → 0 < ops.cmp c a := fun x =>
    (hl.pos_iff c a).2 (hl.lt_of_le_of_lt (by omega) ((hl.pos_iff c b).1 x))
  refine ⟨⟨p1, p2⟩, ?_, ⟨p3, p4⟩⟩
  constructor <;> intro x <;> by_contra y <;> omega

/-- Keys that compare equal are interchangeable as left operands. -/
theorem cmp_congr_left (hl : Lawful ops) {a b : K} (h : ops.cmp a b = 0) (c : K) :
    (ops.cmp a c < 0 ↔ ops.cmp b c < 0) ∧ (ops.cmp a c = 0 ↔ ops.cmp b c = 0) ∧
      (0 < ops.cmp a c ↔ 0 < ops.cmp b c) := by
  obtain ⟨q1, q2, q3⟩ := hl.cmp_congr_right h c
  have s1 := hl.symm a c
  have s2 := hl.symm b c
  have s3 := hl.symm c a
  have s4 := hl.symm c b
  refine ⟨?_, ?_, ?_⟩ <;> constructor <;> intro x <;> omega

end Lawful

theorem intKey_lawful : Lawful intKey where
  total _ _ := rfl
  symm a b := by simp only [Comparable.cmp, intKey, Option.getD_some]; omega
  le_trans a b c := by simp only [Comparable.cmp, intKey, Option.getD_some]; omega

theorem taggedKey_lawful : Lawful taggedKey where
  total _ _ := rfl
  symm a b := by simp only [Comparable.cmp, taggedKey, Option.getD_some]; omega
  le_trans a b c := by simp only [Comparable.cmp, taggedKey, Option.getD_some]; omega

theorem uncomparableKey_lawful : Lawful uncomparableKey where
  total _ _ := rfl
  symm a b := by simp only [Comparable.cmp, uncomparableKey, Option.getD_some]; omega
  le_trans a b c := by simp only [Comparable.cmp, uncomparableKey, Option.getD_some]; omega

theorem IdentityAgrees.identityOK {ops : Comparable K} (h : IdentityAgrees ops) :
    IdentityOK ops where
  total a b := ⟨_, h a b⟩
  sound a b hab := by
    rw [h a b] at hab
    simpa using hab

theorem intKey_identityAgrees : IdentityAgrees intKey := by
  intro a b
  simp only [intKey, Comparable.cmp, Option.getD_some, Option.some.injEq, decide_eq_decide]
  omega

/-! ## `balance` -/

theorem balance_entries (n : node K V) :
    ∃ t, balance n = some t ∧ entries t = entries n := by
  rcases n with _ | ⟨k, v, h, l, r⟩
  · exact ⟨.nil, rfl, rfl⟩
  · simp only [balance, fixHeight_mk, bfactor_mk]
    split_ifs with h1 h2 h3 h4
    · rcases r with _ | ⟨rk, rv, rh, rl, rr⟩
      · simp only [height_nil] at h1; omega
      · rcases rl with _ | ⟨ak, av, ah, al, ar⟩
        · simp only [bfactor_mk, height_nil] at h2; omega
        · simp [rotateRight, rotateLeft, fixHeight_mk, entries]
    · rcases r with _ | ⟨rk, rv, rh, rl, rr⟩
      · simp only [height_nil] at h1; omega
      · simp [rotateLeft, fixHeight_mk, entries]
    · rcases l with _ | ⟨lk, lv, lh, ll, lr⟩
      · simp only [height_nil] at h3; omega
      · rcases lr with _ | ⟨ak, av, ah, al, ar⟩
        · simp only [bfactor_mk, height_nil] at h4; omega
        · simp [rotateRight, rotateLeft, fixHeight_mk, entries]
    · rcases l with _ | ⟨lk, lv, lh, ll, lr⟩
      · simp only [height_nil] at h3; omega
      · simp [rotateRight, fixHeight_mk, entries]
    · exact ⟨_, rfl, rfl⟩

theorem balance_avl (k : K) (v : V) (h : Nat) (l r : node K V) (hl : Avl l) (hr : Avl r)
    (h1 : height l ≤ height r + 2) (h2 : height r ≤ height l + 2) :
    ∃ t, balance (.mk k v h l r) = some t ∧ Avl t ∧
      max (height l) (height r) ≤ height t ∧ height t ≤ 1 + max (height l) (height r) ∧
      (height l ≤ height r + 1 → height r ≤ height l + 1 →
        t = .mk k v (1 + max (height l) (height r)) l r) := by
  simp only [balance, fixHeight_mk, bfactor_mk]
  split_ifs with c1 c2 c3 c4
  · rcases r with _ | ⟨rk, rv, rh, rl, rr⟩
    · simp only [height_nil] at c1; omega
    · rcases rl with _ | ⟨ak, av, ah, al, ar⟩
      · simp only [bfactor_mk, height_nil] at c2; omega
      · simp only [Avl, height_mk, bfactor_mk] at hr c1 c2 h1 h2
        obtain ⟨e1, e2, e3, ⟨e4, e5, e6, e7, e8⟩, e9⟩ := hr
        simp only [rotateRight, rotateLeft, fixHeight_mk, Option.bind_eq_bind, Option.some_bind]
        refine ⟨_, rfl, ?_, ?_, ?_, ?_⟩
        · simp only [Avl, height_mk, hl, e7, e8, e9, and_true, true_and]; omega
        · simp only [height_mk]; omega
        · simp only [height_mk]; omega
        · simp only [height_mk]; omega
  · rcases r with _ | ⟨rk, rv, rh, rl, rr⟩
    · simp only [height_nil] at c1; omega
    · simp only [Avl, height_mk, bfactor_mk] at hr c1 c2 h1 h2
      obtain ⟨e1, e2, e3, e4, e5⟩ := hr
      simp only [rotateLeft, fixHeight_mk]
      refine ⟨_, rfl, ?_, ?_, ?_, ?_⟩
      · simp only [Avl, height_mk, hl, e4, e5, and_true, true_and]; omega
      · simp only [height_mk]; omega
      · simp only [height_mk]; omega
      · simp only [height_mk]; omega
  · rcases l with _ | ⟨lk, lv, lh, ll, lr⟩
    · simp only [height_nil] at c3; omega
    · rcases lr with _ | ⟨ak, av, ah, al, ar⟩
      · simp only [bfactor_mk, height_nil] at c4; omega
      · simp only [Avl, height_mk, bfactor_mk] at hl c3 c4 h1 h2
        obtain ⟨e1, e2, e3, e4, e5, e6, e7, e8, e9⟩ := hl
        simp only [rotateRight, rotateLeft, fixHeight_mk, Option.bind_eq_bind, Option.some_bind]
        refine ⟨_, rfl, ?_, ?_, ?_, ?_⟩
        · simp only [Avl, height_mk, hr, e4, e8, e9, and_true, true_and]; omega
        · simp only [height_mk]; omega
        · simp only [height_mk]; omega
        · simp only [height_mk]; omega
  · rcases l with _ | ⟨lk, lv, lh, ll, lr⟩
    · simp only [height_nil] at c3; omega
    · simp only [Avl, height_mk, bfactor_mk] at hl c3 c4 h1 h2
      obtain ⟨e1, e2, e3, e4, e5⟩ := hl
      simp only [rotateRight, fixHeight_mk]
      refine ⟨_, rfl, ?_, ?_, ?_, ?_⟩
      · simp only [Avl, height_mk, hr, e4, e5, and_true, true_and]; omega
      · simp only [height_mk]; omega
      · simp only [height_mk]; omega
      · simp only [height_mk]; omega
  · refine ⟨_, rfl, ⟨rfl, by omega, by omega, hl, hr⟩, ?_, ?_, ?_⟩
    · simp only [height_mk]; omega
    · simp only [height_mk]; omega
    · intros; rfl

theorem balance_spec (k : K) (v : V) (h : Nat) (l r : node K V) (hl : Avl l) (hr : Avl r)
    (h1 : height l ≤ height r + 2) (h2 : height r ≤ height l + 2) :
    ∃ t, balance (.mk k v h l r) = some t ∧ Avl t ∧
      entries t = entries l ++ ⟨k, v⟩ :: entries r ∧
      max (height l) (height r) ≤ height t ∧ height t ≤ 1 + max (height l) (height r) ∧
      (height l ≤ height r + 1 → height r ≤ height l + 1 →
        t = .mk k v (1 + max (height l) (height r)) l r) := by
  obtain ⟨t, b1, b2, b3, b4, b5⟩ := balance_avl k v h l r hl hr h1 h2
  obtain ⟨t', c1, c2⟩ := balance_entries (.mk k v h l r)
  rw [b1] at c1
  cases c1
  exact ⟨t, b1, b2, c2, b3, b4, b5⟩

theorem rotateLeft_mk (k : K) (v : V) (h : Nat) (l : node K V) (mk : K) (mv : V) (mh : Nat)
    (ml mr : node K V) :
    rotateLeft (.mk k v h l (.mk mk mv mh ml mr)) =
      some (.mk mk mv (1 + max (1 + max (height l) (height ml)) (height mr))
        (.mk k v (1 + max (height l) (height ml)) l ml) mr) := by
  simp only [rotateLeft, fixHeight_mk, height_mk]

theorem rotateRight_mk (k : K) (v : V) (h : Nat) (r : node K V) (mk : K) (mv : V) (mh : Nat)
    (ml mr : node K V) :
    rotateRight (.mk k v h (.mk mk mv mh ml mr) r) =
      some (.mk mk mv (1 + max (height ml) (1 + max (height mr) (height r))) ml
        (.mk k v (1 + max (height mr) (height r)) mr r)) := by
  simp only [rotateRight, fixHeight_mk, height_mk]

/-! ## Sequences of entries -/

theorem mem_insertEntry (ops : Comparable K) (k : K) (v : V) (es : List (Entry K V))
    (b : Entry K V) (hb : b ∈ insertEntry ops k v es) :
    b.Key = k ∨ ∃ e ∈ es, b.Key = e.Key := by
  induction es with
  | nil =>
    simp only [insertEntry, List.mem_singleton] at hb
    exact Or.inl (by rw [hb])
  | cons e es ih =>
    simp only [insertEntry] at hb
    split_ifs at hb with h1 h2
    · rcases List.mem_cons.1 hb with h | h
      · exact Or.inl (by rw [h])
      · exact Or.inr ⟨b, h, rfl⟩
    · rcases List.mem_cons.1 hb with h | h
      · exact Or.inr ⟨e, List.mem_cons_self _ _, by rw [h]⟩
      · rcases ih h with h' | ⟨e', he', h'⟩
        · exact Or.inl h'
        · exact Or.inr ⟨e', List.mem_cons_of_mem _ he', h'⟩
    · rcases List.mem_cons.1 hb with h | h
      · exact Or.inr ⟨e, List.mem_cons_self _ _, by rw [h]⟩
      · exact Or.inr ⟨b, List.mem_cons_of_mem _ h, rfl⟩

theorem insertEntry_increasing {ops : Comparable K} (hl : Lawful ops) (k : K) (v : V)
    (es : List (Entry K V)) (hs : StrictlyIncreasing ops es) :
    StrictlyIncreasing ops (insertEntry ops k v es) := by
  induction es with
  | nil => simp [insertEntry, StrictlyIncreasing]
  | cons e es ih =>
    unfold StrictlyIncreasing at hs ih ⊢
    rw [List.pairwise_cons] at hs
    simp only [insertEntry]
    split_ifs with h1 h2
    · refine List.pairwise_cons.2 ⟨?_, List.pairwise_cons.2 hs⟩
      intro b hb
      rcases List.mem_cons.1 hb with h | h
      · rw [h]; exact h1
      · exact hl.lt_trans h1 (hs.1 b h)
    · refine List.pairwise_cons.2 ⟨?_, ih hs.2⟩
      intro b hb
      rcases mem_insertEntry ops k v es b hb with h | ⟨e', he', h⟩
      · rw [h]; exact (hl.pos_iff k e.Key).1 h2
      · rw [h]; exact hs.1 e' he'
    · exact List.pairwise_cons.2 ⟨hs.1, hs.2⟩

theorem insertEntry_append_lt (ops : Comparable K) (k : K) (v : V) (xs ys : List (Entry K V))
    (e : Entry K V) (h : ops.cmp k e.Key < 0) :
    insertEntry ops k v (xs ++ e :: ys) = insertEntry ops k v xs ++ e :: ys := by
  induction xs with
  | nil => simp [insertEntry, h]
  | cons x xs ih =>
    rw [List.cons_append]
    simp only [insertEntry, ih]
    split_ifs <;> rfl

theorem insertEntry_append_gt (ops : Comparable K) (k : K) (v : V) (xs ys : List (Entry K V))
    (h : ∀ x ∈ xs, 0 < ops.cmp k x.Key) :
    insertEntry ops k v (xs ++ ys) = xs ++ insertEntry ops k v ys := by
  induction xs with
  | nil => rfl
  | cons x xs ih =>
    have hx := h x (List.mem_cons_self _ _)
    have hx' : ¬ ops.cmp k x.Key < 0 := by omega
    rw [List.cons_append]
    simp only [insertEntry, hx, hx', if_true, if_false]
    rw [ih (fun y hy => h y (List.mem_cons_of_mem _ hy))]
    rfl

theorem insertEntry_lt_all (ops : Comparable K) (k : K) (v : V) (ys : List (Entry K V))
    (h : ∀ y ∈ ys, ops.cmp k y.Key < 0) : insertEntry ops k v ys = ⟨k, v⟩ :: ys := by
  cases ys with
  | nil => rfl
  | cons y ys => simp only [insertEntry, h y (List.mem_cons_self _ _), if_true]

theorem lookupEntry_append_left [Inhabited V] (ops : Comparable K) (k : K)
    (xs ys : List (Entry K V)) (h : ∀ y ∈ ys, ops.cmp k y.Key ≠ 0) :
    lookupEntry ops k (xs ++ ys) = lookupEntry ops k xs := by
  induction xs with
  | nil =>
    induction ys with
    | nil => rfl
    | cons y ys ih =>
      simp only [List.nil_append, lookupEntry, h y (List.mem_cons_self _ _), if_false] at ih ⊢
      exact ih (fun z hz => h z (List.mem_cons_of_mem _ hz))
  | cons x xs ih =>
    rw [List.cons_append]
    simp only [lookupEntry, ih]

theorem lookupEntry_append_right [Inhabited V] (ops : Comparable K) (k : K)
    (xs ys : List (Entry K V)) (h : ∀ x ∈ xs, ops.cmp k x.Key ≠ 0) :
    lookupEntry ops k (xs ++ ys) = lookupEntry ops k ys := by
  induction xs with
  | nil => rfl
  | cons x xs ih =>
    rw [List.cons_append]
    simp only [lookupEntry, h x (List.mem_cons_self _ _), if_false]
    exact ih (fun z hz => h z (List.mem_cons_of_mem _ hz))

theorem lookupEntry_insertEntry [Inhabited V] {ops : Comparable K} (hl : Lawful ops)
    (k k' : K) (v : V) (es : List (Entry K V)) :
    lookupEntry ops k' (insertEntry ops k v es) =
      if ops.cmp k' k = 0 then (v, true) else lookupEntry ops k' es := by
  induction es with
  | nil => simp [insertEntry, lookupEntry]
  | cons e es ih =>
    simp only [insertEntry]
    by_cases h1 : ops.cmp k e.Key < 0
    · simp only [h1, if_true, lookupEntry]
    · simp only [h1, if_false]
      by_cases h2 : 0 < ops.cmp k e.Key
      · simp only [h2, if_true, lookupEntry, ih]
        by_cases h3 : ops.cmp k' k = 0
        · have := (hl.cmp_congr_left h3 e.Key).2.2.2 h2
          have hne : ops.cmp k' e.Key ≠ 0 := by omega
          simp only [h3, hne, if_true, if_false]
        · simp only [h3, if_false]
      · simp only [h2, if_false, lookupEntry]
        have hke : ops.cmp k e.Key = 0 := by omega
        by_cases h3 : ops.cmp k' k = 0
        · have := (hl.cmp_congr_left h3 e.Key).2.1.2 hke
          simp only [h3, this, if_true]
        · have hne : ops.cmp k' e.Key ≠ 0 := fun h0 =>
            h3 ((hl.cmp_congr_right hke k').2.1.2 h0)
          simp only [h3, hne, if_false]

theorem map_eq_self_of_ne {ops : Comparable K} (k : K) (v : V) (es : List (Entry K V))
    (h : ∀ e ∈ es, ops.cmp k e.Key ≠ 0) :
    es.map (fun e => if ops.cmp k e.Key = 0 then (⟨e.Key, v⟩ : Entry K V) else e) = es := by
  induction es with
  | nil => rfl
  | cons e es ih =>
    simp only [List.map_cons, h e (List.mem_cons_self _ _), if_false]
    rw [ih (fun x hx => h x (List.mem_cons_of_mem _ hx))]

theorem lookupEntry_filter_ne [Inhabited V] {ops : Comparable K} (hl : Lawful ops)
    (k k' : K) (es : List (Entry K V)) :
    lookupEntry ops k' (es.filter (fun e => !decide (ops.cmp e.Key k = 0))) =
      if ops.cmp k' k = 0 then (default, false) else lookupEntry ops k' es := by
  induction es with
  | nil => simp [lookupEntry]
  | cons e es ih =>
    by_cases c : ops.cmp e.Key k = 0
    · have hk : ops.cmp k' e.Key = 0 ↔ ops.cmp k' k = 0 := (hl.cmp_congr_right c k').2.1
      simp only [List.filter_cons, c, decide_True, Bool.not_true, Bool.false_eq_true, if_false,
        ih, lookupEntry]
      by_cases c' : ops.cmp k' k = 0
      · simp only [c', if_true]
      · simp only [c', if_false, mt hk.1 c']
    · simp only [List.filter_cons, c, decide_False, Bool.not_false, if_true, lookupEntry, ih]
      by_cases c' : ops.cmp k' k = 0
      · have hne : ops.cmp k' e.Key ≠ 0 := fun h0 =>
          c (hl.eq_symm ((hl.cmp_congr_left c' e.Key).2.1.1 h0))
        simp only [c', hne, if_true, if_false]
      · simp only [c', if_false]

theorem length_filter_present {ops : Comparable K} (hl : Lawful ops) (k : K)
    (es : List (Entry K V)) (hs : StrictlyIncreasing ops es)
    (hk : ∃ e ∈ es, ops.cmp e.Key k = 0) :
    (es.filter (fun e => !decide (ops.cmp e.Key k = 0))).length + 1 = es.length := by
  induction es with
  | nil => simp at hk
  | cons e es ih =>
    unfold StrictlyIncreasing at hs ih
    rw [List.pairwise_cons] at hs
    by_cases c : ops.cmp e.Key k = 0
    · have hrest : es.filter (fun e => !decide (ops.cmp e.Key k = 0)) = es :=
        List.filter_eq_self.2 (fun x hx => by
          have h1 : ops.cmp k x.Key < 0 :=
            hl.lt_of_le_of_lt (by have := hl.eq_symm c; omega) (hs.1 x hx)
          have h2 := (hl.pos_iff x.Key k).2 h1
          have : ops.cmp x.Key k ≠ 0 := by omega
          simp [this])
      simp only [List.filter_cons, c, decide_True, Bool.not_true, Bool.false_eq_true, if_false,
        hrest, List.length_cons]
    · have hk' : ∃ e ∈ es, ops.cmp e.Key k = 0 := by
        obtain ⟨x, hx, hz⟩ := hk
        rcases List.mem_cons.1 hx with h | h
        · rw [h] at hz; exact absurd hz c
        · exact ⟨x, h, hz⟩
      simp only [List.filter_cons, c, decide_False, Bool.not_false, if_true, List.length_cons,
        ih hs.2 hk']

theorem insertEntry_present {ops : Comparable K} (hl : Lawful ops) (k : K) (v : V)
    (es : List (Entry K V)) (hs : StrictlyIncreasing ops es)
    (hk : ∃ e ∈ es, ops.cmp k e.Key = 0) :
    insertEntry ops k v es =
      es.map (fun e => if ops.cmp k e.Key = 0 then ⟨e.Key, v⟩ else e) := by
  induction es with
  | nil => simp at hk
  | cons e es ih =>
    unfold StrictlyIncreasing at hs ih
    rw [List.pairwise_cons] at hs
    simp only [insertEntry, List.map_cons]
    by_cases c1 : ops.cmp k e.Key < 0
    · exfalso
      obtain ⟨x, hx, hz⟩ := hk
      rcases List.mem_cons.1 hx with h | h
      · rw [h] at hz; omega
      · have h1 : ops.cmp e.Key k < 0 :=
          hl.lt_of_lt_of_le (hs.1 x h) (by have := hl.eq_symm hz; omega)
        have := (hl.pos_iff k e.Key).2 h1
        omega
    · by_cases c2 : 0 < ops.cmp k e.Key
      · have c0 : ops.cmp k e.Key ≠ 0 := by omega
        have hk' : ∃ e ∈ es, ops.cmp k e.Key = 0 := by
          obtain ⟨x, hx, hz⟩ := hk
          rcases List.mem_cons.1 hx with h | h
          · rw [h] at hz; exact absurd hz c0
          · exact ⟨x, h, hz⟩
        simp only [c1, c2, c0, if_true, if_false, ih hs.2 hk']
      · have c0 : ops.cmp k e.Key = 0 := by omega
        have hrest : ∀ x ∈ es, ops.cmp k x.Key ≠ 0 := fun x hx => by
          have := hl.lt_of_le_of_lt (show ops.cmp k e.Key ≤ 0 by omega) (hs.1 x hx)
          omega
        rw [if_neg c1, if_neg c2, if_pos c0, map_eq_self_of_ne k v es hrest]

theorem insertEntry_absent_perm {ops : Comparable K} (k : K) (v : V)
    (es : List (Entry K V)) (hk : ∀ e ∈ es, ops.cmp k e.Key ≠ 0) :
    (insertEntry ops k v es).Perm (⟨k, v⟩ :: es) := by
  induction es with
  | nil => exact List.Perm.refl _
  | cons e es ih =>
    have c0 := hk e (List.mem_cons_self _ _)
    simp only [insertEntry]
    split_ifs with c1 c2
    · exact List.Perm.refl _
    · exact ((ih (fun x hx => hk x (List.mem_cons_of_mem _ hx))).cons e).trans
        (List.Perm.swap _ _ _)
    · omega

theorem lookupEntry_perm [Inhabited V] {ops : Comparable K} (hl : Lawful ops) (k : K)
    {es ms : List (Entry K V)} (hp : es.Perm ms)
    (hu : es.Pairwise (fun a b => ops.cmp a.Key b.Key ≠ 0)) :
    lookupEntry ops k es = lookupEntry ops k ms := by
  have hsymm : ∀ {x y : Entry K V}, ops.cmp x.Key y.Key ≠ 0 → ops.cmp y.Key x.Key ≠ 0 :=
    fun h h' => h (hl.eq_symm h')
  induction hp with
  | nil => rfl
  | cons x _ ih =>
    simp only [lookupEntry, ih (List.pairwise_cons.1 hu).2]
  | swap x y l =>
    simp only [lookupEntry]
    by_cases cx : ops.cmp k x.Key = 0 <;> by_cases cy : ops.cmp k y.Key = 0
    · exfalso
      have hyx := (List.pairwise_cons.1 hu).1 x (List.mem_cons_self _ _)
      exact hyx ((hl.cmp_congr_left cy x.Key).2.1.1 cx)
    · simp only [cx, cy, if_true, if_false]
    · simp only [cx, cy, if_true, if_false]
    · simp only [cx, cy, if_false]
  | trans h1 _ ih1 ih2 =>
    rw [ih1 hu, ih2 (h1.pairwise hu hsymm)]

theorem eq_of_mem_increasing {ops : Comparable K} (hl : Lawful ops) (es : List (Entry K V))
    (hs : StrictlyIncreasing ops es) (a b : Entry K V) (ha : a ∈ es) (hb : b ∈ es)
    (h0 : ops.cmp a.Key b.Key = 0) : a = b := by
  induction es with
  | nil => simp at ha
  | cons e es ih =>
    unfold StrictlyIncreasing at hs ih
    rw [List.pairwise_cons] at hs
    rcases List.mem_cons.1 ha with h | h <;> rcases List.mem_cons.1 hb with h' | h'
    · rw [h, h']
    · have := hs.1 b h'; rw [← h] at this; omega
    · have := hs.1 a h; rw [← h'] at this; have := hl.eq_symm h0; omega
    · exact ih hs.2 h h'

theorem sortedDump_eq_of_perm {ops : Comparable K} (hl : Lawful ops)
    (es ms : List (Entry K V)) (hs : StrictlyIncreasing ops es) (hp : es.Perm ms) :
    sortedDump ops ms = es := by
  haveI : IsTotal (Entry K V) (fun a b => ops.cmp a.Key b.Key ≤ 0) :=
    ⟨fun a b => by
      have := hl.symm a.Key b.Key
      by_cases h : ops.cmp a.Key b.Key ≤ 0
      · exact Or.inl h
      · exact Or.inr (by have := (hl.pos_iff a.Key b.Key).1 (by omega); omega)⟩
  haveI : IsTrans (Entry K V) (fun a b => ops.cmp a.Key b.Key ≤ 0) :=
    ⟨fun a b c h1 h2 => hl.le_trans _ _ _ h1 h2⟩
  have h1 := List.sorted_insertionSort (fun a b : Entry K V => ops.cmp a.Key b.Key ≤ 0) ms
  have h2 := List.perm_insertionSort (fun a b : Entry K V => ops.cmp a.Key b.Key ≤ 0) ms
  have h3 : es.Pairwise (fun a b => ops.cmp a.Key b.Key ≤ 0) :=
    List.Pairwise.imp (fun h => by omega) hs
  refine (List.Perm.eq_of_sorted ?_ h3 h1 (hp.trans h2.symm)).symm
  intro a b ha hb hab hba
  have hb' : b ∈ es := (hp.trans h2.symm).symm.subset hb
  have h0 : ops.cmp a.Key b.Key = 0 := by
    have := (hl.nonneg_iff a.Key b.Key).2 hba
    omega
  exact eq_of_mem_increasing hl es hs a b ha hb' h0

theorem filter_split_sorted {ops : Comparable K} (hl : Lawful ops) (hi : IdentityOK ops)
    (k : K) (es : List (Entry K V)) (hs : StrictlyIncreasing ops es) :
    es.filter (belowKey ops k) ++ es.filter (keptAbove ops k false) =
      es.filter (notIdentical ops k) := by
  induction es with
  | nil => rfl
  | cons e es ih =>
    unfold StrictlyIncreasing at hs ih
    rw [List.pairwise_cons] at hs
    by_cases c : ops.cmp e.Key k < 0
    · have hne : ops.identical e.Key k ≠ some true := fun hid => by
        have := hi.sound _ _ hid; omega
      have p1 : belowKey ops k e = true := by simp only [belowKey, decide_eq_true_eq]; exact c
      have p2 : keptAbove ops k false e = false := by
        simp only [keptAbove, Bool.and_eq_false_imp, decide_eq_true_eq]
        intro hc; exact absurd c hc
      have p3 : notIdentical ops k e = true := by simp [notIdentical, hne]
      simp only [List.filter_cons, p1, p2, p3, if_true, List.cons_append, Bool.false_eq_true,
        if_false]
      rw [ih hs.2]
    · have hge : ∀ x ∈ e :: es, ¬ ops.cmp x.Key k < 0 := by
        intro x hx hxk
        rcases List.mem_cons.1 hx with h | h
        · rw [h] at hxk; exact c hxk
        · exact c (hl.lt_trans (hs.1 x h) hxk)
      have q1 : (e :: es).filter (belowKey ops k) = [] :=
        List.filter_eq_nil_iff.2 (fun x hx => by
          simp only [belowKey, decide_eq_true_eq]; exact hge x hx)
      have q2 : (e :: es).filter (keptAbove ops k false) =
          (e :: es).filter (notIdentical ops k) :=
        List.filter_congr (fun x hx => by
          simp only [keptAbove, notIdentical, hge x hx, not_false_eq_true, decide_True,
            Bool.true_and, Bool.or_false])
      rw [q1, q2, List.nil_append]

theorem notIdentical_of_agrees {ops : Comparable K} (hi : IdentityAgrees ops) (k : K)
    (es : List (Entry K V)) :
    es.filter (notIdentical ops k) = es.filter (fun e => !decide (ops.cmp e.Key k = 0)) :=
  List.filter_congr (fun e _ => by
    simp only [notIdentical, hi e.Key k]
    cases decide (ops.cmp e.Key k = 0) <;> rfl)

/-! ## `insert` and `find` -/

theorem bst_iff_increasing {ops : Comparable K} (hl : Lawful ops) (t : node K V) :
    BST ops t ↔ StrictlyIncreasing ops (entries t) := by
  induction t with
  | nil => simp [BST, StrictlyIncreasing, entries]
  | mk k v h l r ihl ihr =>
    simp only [BST, entries, forall_keys, ihl, ihr]
    unfold StrictlyIncreasing
    rw [List.pairwise_append, List.pairwise_cons]
    constructor
    · rintro ⟨h1, h2, h3, h4⟩
      refine ⟨h3, ⟨fun b hb => (hl.pos_iff _ _).1 (h2 b hb), h4⟩, ?_⟩
      intro a ha b hb
      rcases List.mem_cons.1 hb with e | hb'
      · rw [e]; exact h1 a ha
      · exact hl.lt_trans (h1 a ha) ((hl.pos_iff _ _).1 (h2 b hb'))
    · rintro ⟨h3, ⟨h2, h4⟩, h5⟩
      exact ⟨fun a ha => h5 a ha _ (List.mem_cons_self _ _),
        fun b hb => (hl.pos_iff _ _).2 (h2 b hb), h3, h4⟩

theorem increasing_keyUnique {ops : Comparable K} (t : node K V)
    (h : StrictlyIncreasing ops (entries t)) : KeyUnique ops t :=
  List.Pairwise.imp (fun hab => by omega) h

theorem insert_entries {ops : Comparable K} (hl : Lawful ops) (t : node K V) (k : K) (v : V)
    (hb : BST ops t) :
    ∃ t', insert ops t k v = some t' ∧ entries t' = insertEntry ops k v (entries t) := by
  induction t with
  | nil => exact ⟨_, rfl, rfl⟩
  | mk nk nv h l r ihl ihr =>
    simp only [BST, forall_keys] at hb
    obtain ⟨h1, h2, h3, h4⟩ := hb
    simp only [insert, hl.total, Option.bind_eq_bind, Option.some_bind]
    by_cases c1 : ops.cmp k nk < 0
    · obtain ⟨l', e1, e2⟩ := ihl h3
      obtain ⟨t', e3, e4⟩ := balance_entries (.mk nk nv h l' r)
      refine ⟨t', by simp only [c1, if_true, e1, Option.some_bind, e3], ?_⟩
      rw [e4]
      simp only [entries, e2]
      exact (insertEntry_append_lt ops k v _ _ ⟨nk, nv⟩ c1).symm
    · by_cases c2 : ops.cmp k nk > 0
      · obtain ⟨r', e1, e2⟩ := ihr h4
        obtain ⟨t', e3, e4⟩ := balance_entries (.mk nk nv h l r')
        refine ⟨t', by simp only [c1, c2, if_true, if_false, e1, Option.some_bind, e3], ?_⟩
        rw [e4]
        simp only [entries, e2]
        have hxs : ∀ x ∈ entries l, 0 < ops.cmp k x.Key := fun x hx =>
          (hl.pos_iff _ _).2 (hl.lt_trans (h1 x hx) ((hl.pos_iff _ _).1 c2))
        rw [insertEntry_append_gt ops k v _ _ hxs]
        simp only [insertEntry, c1, c2, if_true, if_false]
      · obtain ⟨t', e3, e4⟩ := balance_entries (.mk nk v h l r)
        refine ⟨t', by simp only [c1, c2, if_false, e3], ?_⟩
        rw [e4]
        simp only [entries]
        have c0 : ops.cmp k nk = 0 := by omega
        have hnk : ops.cmp nk k ≤ 0 := by have := hl.eq_symm c0; omega
        have hxs : ∀ x ∈ entries l, 0 < ops.cmp k x.Key := fun x hx =>
          (hl.pos_iff _ _).2 (hl.lt_of_lt_of_le (h1 x hx) hnk)
        rw [insertEntry_append_gt ops k v _ _ hxs]
        simp only [insertEntry, c1, c2, if_false]

theorem insert_avl {ops : Comparable K} (hl : Lawful ops) (t : node K V) (k : K) (v : V)
    (ha : Avl t) :
    ∃ t', insert ops t k v = some t' ∧ Avl t' ∧
      (height t' = height t ∨ height t' = height t + 1) := by
  induction t with
  | nil =>
    refine ⟨_, rfl, ?_, Or.inr rfl⟩
    simp [Avl]
  | mk nk nv h l r ihl ihr =>
    simp only [Avl] at ha
    obtain ⟨a1, a2, a3, a4, a5⟩ := ha
    simp only [insert, hl.total, Option.bind_eq_bind, Option.some_bind, height_mk]
    by_cases c1 : ops.cmp k nk < 0
    · obtain ⟨l', e1, e2, e3⟩ := ihl a4
      obtain ⟨t', b1, b2, b3, b4, b5⟩ :=
        balance_avl nk nv h l' r e2 a5 (by omega) (by omega)
      refine ⟨t', by simp only [c1, if_true, e1, Option.some_bind, b1], b2, ?_⟩
      by_cases hd : height l' ≤ height r + 1
      · rw [b5 hd (by omega)]; simp only [height_mk]; omega
      · omega
    · by_cases c2 : ops.cmp k nk > 0
      · obtain ⟨r', e1, e2, e3⟩ := ihr a5
        obtain ⟨t', b1, b2, b3, b4, b5⟩ :=
          balance_avl nk nv h l r' a4 e2 (by omega) (by omega)
        refine ⟨t', by simp only [c1, c2, if_true, if_false, e1, Option.some_bind, b1], b2, ?_⟩
        by_cases hd : height r' ≤ height l + 1
        · rw [b5 (by omega) hd]; simp only [height_mk]; omega
        · omega
      · obtain ⟨t', b1, b2, b3, b4, b5⟩ :=
          balance_avl nk v h l r a4 a5 (by omega) (by omega)
        refine ⟨t', by simp only [c1, c2, if_false, b1], b2, ?_⟩
        rw [b5 a2 a3]; simp only [height_mk]; omega

theorem find_eq_lookup [Inhabited V] {ops : Comparable K} (hl : Lawful ops) (t : node K V)
    (k : K) (hb : BST ops t) : find ops t k = some (lookupEntry ops k (entries t)) := by
  induction t with
  | nil => rfl
  | mk nk nv h l r ihl ihr =>
    simp only [BST, forall_keys] at hb
    obtain ⟨h1, h2, h3, h4⟩ := hb
    simp only [find, hl.total, Option.bind_eq_bind, Option.some_bind, entries]
    by_cases c1 : ops.cmp k nk < 0
    · simp only [c1, if_true, ihl h3]
      rw [lookupEntry_append_left]
      intro y hy
      rcases List.mem_cons.1 hy with e | hy'
      · rw [e]; exact fun h0 => by simp only at h0; omega
      · have := hl.lt_trans c1 ((hl.pos_iff _ _).1 (h2 y hy'))
        omega
    · by_cases c2 : ops.cmp k nk > 0
      · simp only [c1, c2, if_true, if_false, ihr h4]
        rw [lookupEntry_append_right]
        · have : ops.cmp k nk ≠ 0 := by omega
          simp only [lookupEntry, this, if_false]
        · intro x hx
          have := (hl.pos_iff _ _).2 (hl.lt_trans (h1 x hx) ((hl.pos_iff _ _).1 c2))
          omega
      · have c0 : ops.cmp k nk = 0 := by omega
        simp only [c1, c2, if_false]
        rw [lookupEntry_append_right]
        · simp only [lookupEntry, c0, if_true]
        · intro x hx
          have hnk : ops.cmp nk k ≤ 0 := by have := hl.eq_symm c0; omega
          have := (hl.pos_iff k x.Key).2 (hl.lt_of_lt_of_le (h1 x hx) hnk)
          omega

theorem insert_bst {ops : Comparable K} (hl : Lawful ops) (t : node K V) (k : K) (v : V)
    (hb : BST ops t) :
    ∃ t', insert ops t k v = some t' ∧ BST ops t' ∧
      entries t' = insertEntry ops k v (entries t) := by
  obtain ⟨t', e1, e2⟩ := insert_entries hl t k v hb
  refine ⟨t', e1, ?_, e2⟩
  rw [bst_iff_increasing hl, e2]
  exact insertEntry_increasing hl k v _ ((bst_iff_increasing hl t).1 hb)

theorem insert_spec {ops : Comparable K} (hl : Lawful ops) (t : node K V) (k : K) (v : V)
    (hb : BST ops t) (ha : Avl t) :
    ∃ t', insert ops t k v = some t' ∧ BST ops t' ∧ Avl t' ∧
      entries t' = insertEntry ops k v (entries t) := by
  obtain ⟨t', e1, e2, e3⟩ := insert_bst hl t k v hb
  obtain ⟨t'', f1, f2, _⟩ := insert_avl hl t k v ha
  rw [e1] at f1
  cases f1
  exact ⟨t', e1, e2, f2, e3⟩

theorem lookup_after_insert [Inhabited V] {ops : Comparable K} (hl : Lawful ops) (t : node K V)
    (k k' : K) (v : V) (hb : BST ops t) :
    ∃ t', insert ops t k v = some t' ∧
      find ops t' k' =
        some (if ops.cmp k' k = 0 then (v, true) else lookupEntry ops k' (entries t)) := by
  obtain ⟨t', e1, e2, e3⟩ := insert_bst hl t k v hb
  refine ⟨t', e1, ?_⟩
  rw [find_eq_lookup hl t' k' e2, e3, lookupEntry_insertEntry hl]

theorem insert_update {ops : Comparable K} (hl : Lawful ops) (t : node K V) (k : K) (v : V)
    (hb : BST ops t) (ha : Avl t) (hk : ∃ e ∈ entries t, ops.cmp k e.Key = 0) :
    ∃ t', insert ops t k v = some t' ∧ Avl t' ∧ shape t' = shape t ∧ height t' = height t ∧
      entries t' =
        (entries t).map (fun e => if ops.cmp k e.Key = 0 then ⟨e.Key, v⟩ else e) := by
  induction t with
  | nil => simp [entries] at hk
  | mk nk nv h l r ihl ihr =>
    simp only [BST, forall_keys] at hb
    obtain ⟨h1, h2, h3, h4⟩ := hb
    simp only [Avl] at ha
    obtain ⟨a1, a2, a3, a4, a5⟩ := ha
    have hleft : ops.cmp k nk < 0 → ∀ e ∈ entries r, ops.cmp k e.Key ≠ 0 := by
      intro c e he
      have := hl.lt_trans c ((hl.pos_iff _ _).1 (h2 e he))
      omega
    have hright : ops.cmp nk k ≤ 0 → ∀ e ∈ entries l, ops.cmp k e.Key ≠ 0 := by
      intro c e he
      have := (hl.pos_iff k e.Key).2 (hl.lt_of_lt_of_le (h1 e he) c)
      omega
    simp only [insert, hl.total, Option.bind_eq_bind, Option.some_bind, height_mk, entries,
      List.map_append, List.map_cons]
    by_cases c1 : ops.cmp k nk < 0
    · have c0 : ops.cmp k nk ≠ 0 := by omega
      have hkl : ∃ e ∈ entries l, ops.cmp k e.Key = 0 := by
        obtain ⟨e, he, hz⟩ := hk
        simp only [entries, List.mem_append, List.mem_cons] at he
        rcases he with he | he | he
        · exact ⟨e, he, hz⟩
        · rw [he] at hz; exact absurd hz c0
        · exact absurd hz (hleft c1 e he)
      obtain ⟨l', e1, e2, e3, e4, e5⟩ := ihl h3 a4 hkl
      obtain ⟨t', b1, b2, _, _, b5⟩ := balance_avl nk nv h l' r e2 a5 (by omega) (by omega)
      have b6 := b5 (by omega) (by omega)
      refine ⟨t', by simp only [c1, if_true, e1, Option.some_bind, b1], b2, ?_, ?_, ?_⟩
      · rw [b6]; simp only [shape, e3, e4, a1]
      · rw [b6, e4, height_mk, a1]
      · rw [b6]
        simp only [entries, e5, c0, if_false, map_eq_self_of_ne k v _ (hleft c1)]
    · by_cases c2 : ops.cmp k nk > 0
      · have c0 : ops.cmp k nk ≠ 0 := by omega
        have cle : ops.cmp nk k ≤ 0 := by have := (hl.pos_iff k nk).1 c2; omega
        have hkr : ∃ e ∈ entries r, ops.cmp k e.Key = 0 := by
          obtain ⟨e, he, hz⟩ := hk
          simp only [entries, List.mem_append, List.mem_cons] at he
          rcases he with he | he | he
          · exact absurd hz (hright cle e he)
          · rw [he] at hz; exact absurd hz c0
          · exact ⟨e, he, hz⟩
        obtain ⟨r', e1, e2, e3, e4, e5⟩ := ihr h4 a5 hkr
        obtain ⟨t', b1, b2, _, _, b5⟩ := balance_avl nk nv h l r' a4 e2 (by omega) (by omega)
        have b6 := b5 (by omega) (by omega)
        refine ⟨t', by simp only [c1, c2, if_true, if_false, e1, Option.some_bind, b1], b2,
          ?_, ?_, ?_⟩
        · rw [b6]; simp only [shape, e3, e4, a1]
        · rw [b6, e4, height_mk, a1]
        · rw [b6]
          simp only [entries, e5, c0, if_false, map_eq_self_of_ne k v _ (hright cle)]
      · have c0 : ops.cmp k nk = 0 := by omega
        have cle : ops.cmp nk k ≤ 0 := by have := hl.eq_symm c0; omega
        have hr0 : ∀ e ∈ entries r, ops.cmp k e.Key ≠ 0 := by
          intro e he
          have := hl.lt_of_le_of_lt (show ops.cmp k nk ≤ 0 by omega)
            ((hl.pos_iff _ _).1 (h2 e he))
          omega
        obtain ⟨t', b1, b2, _, _, b5⟩ := balance_avl nk v h l r a4 a5 (by omega) (by omega)
        have b6 := b5 a2 a3
        refine ⟨t', by simp only [c1, c2, if_false, b1], b2, ?_, ?_, ?_⟩
        · rw [b6]; simp only [shape, a1]
        · rw [b6, height_mk, a1]
        · rw [b6]
          simp only [entries, c0, if_true, map_eq_self_of_ne k v _ (hright cle),
            map_eq_self_of_ne k v _ hr0]

theorem merge_nil_left (m : node K V) : merge .nil m = some m := by
  rw [merge]

theorem merge_nil_right (n : node K V) : merge n .nil = some n := by
  cases n <;> rw [merge]

/-- The minimum of a non-empty AVL tree: `findMin` returns the node of the
first in-order entry, which has no left child, and `removeMin` returns an AVL
tree with the remaining entries whose height is that of the tree or one less. -/
theorem min_spec (t : node K V) (ha : Avl t) (hne : t ≠ .nil) :
    ∃ mk mv mh mr t', findMin t = some (.mk mk mv mh .nil mr) ∧ removeMin t = some t' ∧
      entries t = ⟨mk, mv⟩ :: entries t' ∧ Avl t' ∧
      (height t' = height t ∨ height t' + 1 = height t) := by
  induction t with
  | nil => exact absurd rfl hne
  | mk k v h l r ihl _ =>
    simp only [Avl] at ha
    obtain ⟨a1, a2, a3, a4, a5⟩ := ha
    rcases l with _ | ⟨lk, lv, lh, ll, lr⟩
    · refine ⟨k, v, h, r, r, rfl, rfl, rfl, a5, Or.inr ?_⟩
      simp only [height_nil, height_mk] at a1 a3 ⊢
      omega
    · obtain ⟨mk, mv, mh, mr, l', e1, e2, e3, e4, e5⟩ := ihl a4 (by simp)
      obtain ⟨t', b1, b2, b3, b4, b5, b6⟩ :=
        balance_spec k v h l' r e4 a5 (by omega) (by omega)
      refine ⟨mk, mv, mh, mr, t', ?_, ?_, ?_, b2, ?_⟩
      · simp only [findMin, e1]
      · simp only [removeMin, e2, Option.bind_eq_bind, Option.some_bind, b1]
      · rw [b3]; simp only [entries] at e3 ⊢; rw [e3]; rfl
      · simp only [height_mk] at e5 a1 a2 a3 ⊢
        by_cases hd : height r ≤ height l' + 1
        · rw [b6 (by omega) hd]; simp only [height_mk]; omega
        · omega

theorem merge_spec (n m : node K V) (hn : Avl n) (hm : Avl m) :
    ∃ t, merge n m = some t ∧ Avl t ∧ entries t = entries n ++ entries m ∧
      max (height n) (height m) ≤ height t ∧ height t ≤ max (height n) (height m) + 1 := by
  induction n, m using merge.induct with
  | case1 m => exact ⟨m, merge_nil_left m, hm, by simp [entries], by simp, by simp⟩
  | case2 nk nv nh nl nr =>
    exact ⟨_, merge_nil_right _, hn, by simp [entries], by simp, by simp⟩
  | case3 nk nv nh nl nr mk mv mh ml mr c1 ih =>
    have hn' := hn
    simp only [Avl] at hn'
    obtain ⟨a1, a2, a3, a4, a5⟩ := hn'
    obtain ⟨t1, e1, e2, e3, e4, e5⟩ := ih a5 hm
    simp only [height_mk] at e4 e5
    obtain ⟨t, b1, b2, b3, b4, b5, b6⟩ :=
      balance_spec nk nv nh nl t1 a4 e2 (by omega) (by omega)
    refine ⟨t, ?_, b2, ?_, ?_, ?_⟩
    · rw [merge]; simp only [c1, if_true, e1, Option.bind_eq_bind, Option.some_bind, b1]
    · rw [b3, e3]; simp [entries]
    · simp only [height_mk]
      by_cases hd : height t1 ≤ height nl + 1
      · rw [b6 (by omega) hd]; simp only [height_mk]; omega
      · omega
    · simp only [height_mk]; omega
  | case4 nk nv nh nl nr mk mv mh ml mr c1 c2 ih =>
    have hm' := hm
    simp only [Avl] at hm'
    obtain ⟨a1, a2, a3, a4, a5⟩ := hm'
    obtain ⟨t1, e1, e2, e3, e4, e5⟩ := ih hn a4
    simp only [height_mk] at e4 e5
    obtain ⟨t, b1, b2, b3, b4, b5, b6⟩ :=
      balance_spec mk mv mh t1 mr e2 a5 (by omega) (by omega)
    refine ⟨t, ?_, b2, ?_, ?_, ?_⟩
    · rw [merge]; simp only [c1, c2, if_false, if_true, e1, Option.bind_eq_bind, Option.some_bind, b1]
    · rw [b3, e3]; simp [entries]
    · simp only [height_mk]
      by_cases hd : height t1 ≤ height mr + 1
      · rw [b6 hd (by omega)]; simp only [height_mk]; omega
      · omega
    · simp only [height_mk]; omega
  | case5 nk nv nh nl nr mk mv mh ml mr c1 c2 =>
    obtain ⟨rk, rv, rh, rr, m', e1, e2, e3, e4, e5⟩ := min_spec (.mk mk mv mh ml mr) hm (by simp)
    simp only [height_mk] at e5
    obtain ⟨t, b1, b2, b3, b4, b5, b6⟩ :=
      balance_spec rk rv rh (.mk nk nv nh nl nr) m' hn e4
        (by simp only [height_mk]; omega) (by simp only [height_mk]; omega)
    simp only [height_mk] at b4 b5 b6
    refine ⟨t, ?_, b2, ?_, ?_, ?_⟩
    · rw [merge]
      simp only [c1, c2, if_false, e1, e2, Option.bind_eq_bind, Option.some_bind, b1]
    · rw [b3, e3]
    · rw [b6 (by omega) (by omega)]; simp only [height_mk]; omega
    · simp only [height_mk]; omega

theorem split_spec {ops : Comparable K} (hl : Lawful ops) (hi : IdentityOK ops)
    (t : node K V) (k : K) (incl : Bool) (hb : BST ops t) (ha : Avl t) :
    ∃ t1 t2, split ops t k incl = some (t1, t2) ∧ Avl t1 ∧ Avl t2 ∧
      entries t1 = (entries t).filter (belowKey ops k) ∧
      entries t2 = (entries t).filter (keptAbove ops k incl) := by
  induction t with
  | nil => exact ⟨.nil, .nil, rfl, trivial, trivial, rfl, rfl⟩
  | mk nk nv h l r ihl ihr =>
    have hs := (bst_iff_increasing hl _).1 hb
    simp only [BST, forall_keys] at hb
    obtain ⟨h1, h2, h3, h4⟩ := hb
    simp only [Avl] at ha
    obtain ⟨_, _, _, a4, a5⟩ := ha
    simp only [entries] at hs
    unfold StrictlyIncreasing at hs
    simp only [split, hl.total, Option.bind_eq_bind, Option.some_bind, entries,
      List.filter_append, List.filter_cons]
    by_cases c : ops.cmp nk k < 0
    · -- the node and its left subtree go to the first tree
      obtain ⟨r1, r2, e1, e2, e3, e4, e5⟩ := ihr h4 a5
      obtain ⟨m1, f1, f2, f3, _, _⟩ := merge_spec l r1 a4 e2
      have hsub : (entries l ++ (entries r).filter (belowKey ops k)).Sublist
          (entries l ++ ⟨nk, nv⟩ :: entries r) :=
        List.Sublist.append (List.Sublist.refl _)
          (List.Sublist.cons _ (List.filter_sublist _))
      have hbm : BST ops m1 := by
        rw [bst_iff_increasing hl, f3, e4]
        exact List.Pairwise.sublist hsub hs
      obtain ⟨t1, g1, _, g3, g4⟩ := insert_spec hl m1 nk nv hbm f2
      refine ⟨t1, r2, ?_, g3, e3, ?_, ?_⟩
      · simp only [c, if_true, e1, Option.some_bind, f1, g1]; rfl
      · have hl1 : (entries l).filter (belowKey ops k) = entries l :=
          List.filter_eq_self.2 (fun x hx => by
            simp only [belowKey, decide_eq_true_eq]
            exact hl.lt_trans (h1 x hx) c)
        have hgt : ∀ x ∈ entries l, 0 < ops.cmp nk x.Key := fun x hx =>
          (hl.pos_iff _ _).2 (h1 x hx)
        have hlt : ∀ y ∈ (entries r).filter (belowKey ops k), ops.cmp nk y.Key < 0 :=
          fun y hy => (hl.pos_iff _ _).1 (h2 y (List.mem_of_mem_filter hy))
        have hk : belowKey ops k (⟨nk, nv⟩ : Entry K V) = true := by
          simp only [belowKey, decide_eq_true_eq]; exact c
        rw [g4, f3, e4, insertEntry_append_gt ops nk nv _ _ hgt,
          insertEntry_lt_all ops nk nv _ hlt, hl1]
        simp only [hk, if_true]
      · have hl2 : (entries l).filter (keptAbove ops k incl) = [] :=
          List.filter_eq_nil_iff.2 (fun x hx => by
            have := hl.lt_trans (h1 x hx) c
            simp only [keptAbove, Bool.and_eq_true, decide_eq_true_eq, not_and]
            intro hc; exact absurd this hc)
        have hk : keptAbove ops k incl (⟨nk, nv⟩ : Entry K V) = false := by
          simp only [keptAbove, Bool.and_eq_false_imp, decide_eq_true_eq]
          intro hc; exact absurd c hc
        rw [e5, hl2]
        simp only [hk, List.nil_append]; rfl
    · -- the node and its right subtree stay out of the first tree
      obtain ⟨l1, l2, e1, e2, e3, e4, e5⟩ := ihl h3 a4
      obtain ⟨m2, f1, f2, f3, _, _⟩ := merge_spec l2 r e3 a5
      have hnk : ops.cmp k nk ≤ 0 := by have := (hl.nonneg_iff nk k).1 (by omega); exact this
      have hrgt : ∀ x ∈ entries r, 0 < ops.cmp x.Key k := fun x hx =>
        (hl.pos_iff _ _).2 (hl.lt_of_le_of_lt hnk ((hl.pos_iff _ _).1 (h2 x hx)))
      have hr1 : (entries r).filter (belowKey ops k) = [] :=
        List.filter_eq_nil_iff.2 (fun x hx => by
          have := hrgt x hx
          simp only [belowKey, decide_eq_true_eq]; omega)
      have hr2 : (entries r).filter (keptAbove ops k incl) = entries r :=
        List.filter_eq_self.2 (fun x hx => by
          have hp := hrgt x hx
          have hne : ops.identical x.Key k ≠ some true := fun hid => by
            have := hi.sound _ _ hid; omega
          simp only [keptAbove, Bool.and_eq_true, decide_eq_true_eq, Bool.or_eq_true,
            Bool.not_eq_true', beq_eq_false_iff_ne, ne_eq]
          exact ⟨by omega, Or.inl hne⟩)
      have hk1 : belowKey ops k (⟨nk, nv⟩ : Entry K V) = false := by
        simp only [belowKey, decide_eq_false_iff_not]; exact c
      obtain ⟨same, hsame⟩ := hi.total nk k
      have hsub : ((entries l).filter (keptAbove ops k incl) ++ entries r).Sublist
          (entries l ++ ⟨nk, nv⟩ :: entries r) :=
        List.Sublist.append (List.filter_sublist _) (List.Sublist.cons _ (List.Sublist.refl _))
      have hbm : BST ops m2 := by
        rw [bst_iff_increasing hl, f3, e5]
        exact List.Pairwise.sublist hsub hs
      by_cases hc : (!same || incl) = true
      · obtain ⟨t2, g1, _, g3, g4⟩ := insert_spec hl m2 nk nv hbm f2
        refine ⟨l1, t2, ?_, e2, g3, ?_, ?_⟩
        · simp only [c, if_false, e1, Option.some_bind, f1, hsame, hc, if_true, g1]; rfl
        · rw [e4, hr1]; simp only [hk1]; simp
        · have hgt : ∀ x ∈ (entries l).filter (keptAbove ops k incl),
              0 < ops.cmp nk x.Key := fun x hx =>
            (hl.pos_iff _ _).2 (h1 x (List.mem_of_mem_filter hx))
          have hlt : ∀ y ∈ entries r, ops.cmp nk y.Key < 0 :=
            fun y hy => (hl.pos_iff _ _).1 (h2 y hy)
          have hk2 : keptAbove ops k incl (⟨nk, nv⟩ : Entry K V) = true := by
            simp only [keptAbove, hsame, Bool.and_eq_true, decide_eq_true_eq]
            refine ⟨c, ?_⟩
            cases same <;> cases incl <;> simp_all
          rw [g4, f3, e5, insertEntry_append_gt ops nk nv _ _ hgt,
            insertEntry_lt_all ops nk nv _ hlt, hr2]
          simp only [hk2, if_true]
      · refine ⟨l1, m2, ?_, e2, f2, ?_, ?_⟩
        · simp only [c, if_false, e1, Option.some_bind, f1, hsame, hc]; rfl
        · rw [e4, hr1]; simp only [hk1]; simp
        · have hk2 : keptAbove ops k incl (⟨nk, nv⟩ : Entry K V) = false := by
            simp only [keptAbove, hsame]
            cases same <;> cases incl <;> simp_all
          rw [f3, e5, hr2]
          simp only [hk2]; simp

theorem remove_spec {ops : Comparable K} (hl : Lawful ops) (hi : IdentityOK ops)
    (t : node K V) (k : K) (hb : BST ops t) (ha : Avl t) :
    ∃ t', remove ops t k = some t' ∧ BST ops t' ∧ Avl t' ∧
      entries t' = (entries t).filter (notIdentical ops k) := by
  rcases t with _ | ⟨nk, nv, h, l, r⟩
  · exact ⟨.nil, rfl, trivial, trivial, rfl⟩
  · have hs := (bst_iff_increasing hl _).1 hb
    obtain ⟨t1, t2, e1, e2, e3, e4, e5⟩ := split_spec hl hi _ k false hb ha
    obtain ⟨t', f1, f2, f3, _, _⟩ := merge_spec t1 t2 e2 e3
    have hent : entries t' = (entries (node.mk nk nv h l r)).filter (notIdentical ops k) := by
      rw [f3, e4, e5]; exact filter_split_sorted hl hi k _ hs
    refine ⟨t', ?_, ?_, f2, hent⟩
    · simp only [remove, e1, Option.bind_eq_bind, Option.some_bind, f1]
    · rw [bst_iff_increasing hl, hent]
      exact List.Pairwise.sublist (List.filter_sublist _) hs

/-- On keys that Go can compare with `==`, `remove` preserves the tree
invariants, for a key that is present or absent. -/
theorem remove_preserves_invariants_of_identityOK {ops : Comparable K} (hl : Lawful ops)
    (hi : IdentityOK ops) (t : node K V) (k : K) (hb : BST ops t) (hh : HeightConsistent t)
    (ha : AVLBalanced t) :
    ∃ t', remove ops t k = some t' ∧ BST ops t' ∧ KeyUnique ops t' ∧
      HeightConsistent t' ∧ AVLBalanced t' := by
  obtain ⟨t', e1, e2, e3, _⟩ := remove_spec hl hi t k hb ((avl_iff t).2 ⟨hh, ha⟩)
  exact ⟨t', e1, e2, increasing_keyUnique t' ((bst_iff_increasing hl t').1 e2),
    ((avl_iff t').1 e3).1, ((avl_iff t').1 e3).2⟩

/-- On keys that Go can compare with `==`, `remove` of a key that compares
equal to no key of the tree leaves the in-order entries unchanged. -/
theorem remove_absent_of_identityOK {ops : Comparable K} (hl : Lawful ops)
    (hi : IdentityOK ops) (t : node K V) (k : K) (hb : BST ops t) (hh : HeightConsistent t)
    (ha : AVLBalanced t) (hk : ∀ e ∈ inOrderSlice t [], ops.cmp k e.Key ≠ 0) :
    ∃ t', remove ops t k = some t' ∧ inOrderSlice t' [] = inOrderSlice t [] := by
  obtain ⟨t', e1, _, _, e4⟩ := remove_spec hl hi t k hb ((avl_iff t).2 ⟨hh, ha⟩)
  refine ⟨t', e1, ?_⟩
  simp only [inOrderSlice_eq, List.nil_append] at hk ⊢
  rw [e4]
  refine List.filter_eq_self.2 (fun e he => ?_)
  have hne : ops.identical e.Key k ≠ some true := fun hid =>
    hk e he (hl.eq_symm (hi.sound _ _ hid))
  simp [notIdentical, hne]

/-- When `==` on the keys agrees with the comparison, `remove` of a key that
compares equal to a stored key removes exactly that entry: the key is no
longer found, every other key is found as before, and the tree has one entry
less. -/
theorem remove_present_of_identityAgrees [Inhabited V] {ops : Comparable K} (hl : Lawful ops)
    (hi : IdentityAgrees ops) (t : node K V) (k : K) (hb : BST ops t)
    (hh : HeightConsistent t) (ha : AVLBalanced t)
    (hk : ∃ e ∈ inOrderSlice t [], ops.cmp e.Key k = 0) :
    ∃ t', remove ops t k = some t' ∧ find ops t' k = some (default, false) ∧
      (∀ k', ops.cmp k' k ≠ 0 → find ops t' k' = find ops t k') ∧ size t' + 1 = size t := by
  obtain ⟨t', e1, e2, _, e4⟩ := remove_spec hl hi.identityOK t k hb ((avl_iff t).2 ⟨hh, ha⟩)
  rw [notIdentical_of_agrees hi] at e4
  simp only [inOrderSlice_eq, List.nil_append] at hk
  refine ⟨t', e1, ?_, ?_, ?_⟩
  · rw [find_eq_lookup hl t' k e2, e4, lookupEntry_filter_ne hl, if_pos (hl.cmp_self k)]
  · intro k' hk'
    rw [find_eq_lookup hl t' k' e2, find_eq_lookup hl t k' hb, e4, lookupEntry_filter_ne hl,
      if_neg hk']
  · rw [size_eq_length, size_eq_length, e4]
    exact length_filter_present hl k _ ((bst_iff_increasing hl t).1 hb) hk

theorem applyOp_refines {ops : Comparable K} (hl : Lawful ops) (hi : IdentityAgrees ops)
    (t : node K V) (m : List (Entry K V)) (o : TreeOp K V) (hb : BST ops t) (ha : Avl t)
    (hp : (entries t).Perm m) :
    ∃ t', applyOp ops t o = some t' ∧ BST ops t' ∧ Avl t' ∧
      (entries t').Perm (refApply ops m o) := by
  have hs := (bst_iff_increasing hl t).1 hb
  cases o with
  | set k v =>
    obtain ⟨t', e1, e2, e3, e4⟩ := insert_spec hl t k v hb ha
    refine ⟨t', e1, e2, e3, ?_⟩
    rw [e4]
    simp only [refApply]
    by_cases hk : ∃ e ∈ entries t, ops.cmp k e.Key = 0
    · have hany : (m.any fun e => decide (ops.cmp k e.Key = 0)) = true := by
        obtain ⟨e, he, hz⟩ := hk
        exact List.any_eq_true.2 ⟨e, hp.subset he, by simpa using hz⟩
      rw [if_pos hany, insertEntry_present hl k v _ hs hk]
      exact hp.map _
    · have hany : ¬ (m.any fun e => decide (ops.cmp k e.Key = 0)) = true := by
        intro h
        obtain ⟨e, he, hz⟩ := List.any_eq_true.1 h
        exact hk ⟨e, hp.symm.subset he, by simpa using hz⟩
      rw [if_neg hany]
      have habs : ∀ e ∈ entries t, ops.cmp k e.Key ≠ 0 := fun e he hz => hk ⟨e, he, hz⟩
      exact (insertEntry_absent_perm k v _ habs).trans (hp.cons _)
  | delete k =>
    obtain ⟨t', e1, e2, e3, e4⟩ := remove_spec hl hi.identityOK t k hb ha
    refine ⟨t', e1, e2, e3, ?_⟩
    rw [e4, notIdentical_of_agrees hi]
    simp only [refApply]
    have hcongr : (entries t).filter (fun e => !decide (ops.cmp e.Key k = 0)) =
        (entries t).filter (fun e => !decide (ops.cmp k e.Key = 0)) :=
      List.filter_congr (fun e _ => by
        have h1 : ops.cmp e.Key k = 0 ↔ ops.cmp k e.Key = 0 := ⟨hl.eq_symm, hl.eq_symm⟩
        simp only [h1])
    rw [hcongr]
    exact hp.filter _

theorem foldlM_refines {ops : Comparable K} (hl : Lawful ops) (hi : IdentityAgrees ops)
    (os : List (TreeOp K V)) (t : node K V) (m : List (Entry K V)) (hb : BST ops t)
    (ha : Avl t) (hp : (entries t).Perm m) :
    ∃ t', os.foldlM (applyOp ops) t = some t' ∧ BST ops t' ∧ Avl t' ∧
      (entries t').Perm (os.foldl (refApply ops) m) := by
  induction os generalizing t m with
  | nil => exact ⟨t, rfl, hb, ha, hp⟩
  | cons o os ih =>
    obtain ⟨t1, e1, e2, e3, e4⟩ := applyOp_refines hl hi t m o hb ha hp
    obtain ⟨t', f1, f2, f3, f4⟩ := ih t1 (refApply ops m o) e2 e3 e4
    refine ⟨t', ?_, f2, f3, f4⟩
    simp only [List.foldlM_cons, e1, Option.bind_eq_bind, Option.some_bind]
    exact f1

/-- When `==` on the keys agrees with the comparison, the tree refines the
reference map: after every sequence of operations from the empty tree, `find`
answers as the reference lookup and `inOrderSlice` is the sorted dump of the
reference map. -/
theorem runOps_refines_reference [Inhabited V] {ops : Comparable K} (hl : Lawful ops)
    (hi : IdentityAgrees ops) (os : List (TreeOp K V)) :
    ∃ t, runOps ops os = some t ∧
      (∀ k, find ops t k = some (refLookup ops (refRun ops os) k)) ∧
      inOrderSlice t [] = sortedDump ops (refRun ops os) := by
  obtain ⟨t, e1, e2, _, e4⟩ :=
    foldlM_refines hl hi os .nil [] trivial trivial (List.Perm.refl _)
  have hs := (bst_iff_increasing hl t).1 e2
  refine ⟨t, e1, ?_, ?_⟩
  · intro k
    rw [find_eq_lookup hl t k e2]
    exact congrArg some (lookupEntry_perm hl k e4 (increasing_keyUnique t hs))
  · rw [inOrderSlice_eq, List.nil_append]
    exact (sortedDump_eq_of_perm hl _ _ hs e4).symm

theorem insert_avl_of_eq {ops : Comparable K} (hl : Lawful ops) (t t' : node K V) (k : K)
    (v : V) (ha : Avl t) (h : insert ops t k v = some t') : Avl t' := by
  obtain ⟨t'', e1, e2, _⟩ := insert_avl hl t k v ha
  rw [e1] at h
  cases h
  exact e2

theorem merge_avl_of_eq (n m t : node K V) (hn : Avl n) (hm : Avl m)
    (h : merge n m = some t) : Avl t := by
  obtain ⟨t', e1, e2, _⟩ := merge_spec n m hn hm
  rw [e1] at h
  cases h
  exact e2

/-- Whatever `==` answers on the keys, the two trees that `split` returns
satisfy height consistency and AVL balance. -/
theorem split_avl_of_eq {ops : Comparable K} (hl : Lawful ops) (t : node K V) (k : K)
    (incl : Bool) (ha : Avl t) (t1 t2 : node K V)
    (h : split ops t k incl = some (t1, t2)) : Avl t1 ∧ Avl t2 := by
  induction t generalizing t1 t2 with
  | nil =>
    simp only [split, Option.some.injEq, Prod.mk.injEq] at h
    rw [← h.1, ← h.2]
    exact ⟨trivial, trivial⟩
  | mk nk nv hh l r ihl ihr =>
    simp only [Avl] at ha
    obtain ⟨_, _, _, a4, a5⟩ := ha
    simp only [split, hl.total, Option.bind_eq_bind, Option.some_bind] at h
    by_cases c : ops.cmp nk k < 0
    · simp only [c, if_true] at h
      rcases hs : split ops r k incl with _ | ⟨r1, r2⟩
      · simp [hs] at h
      · obtain ⟨b1, b2⟩ := ihr a5 r1 r2 hs
        simp only [hs, Option.some_bind] at h
        rcases hm : merge l r1 with _ | m1
        · simp [hm] at h
        · have hm1 := merge_avl_of_eq l r1 m1 a4 b1 hm
          simp only [hm, Option.some_bind] at h
          rcases hi : insert ops m1 nk nv with _ | i1
          · simp [hi] at h
          · simp only [hi, Option.some_bind, Option.pure_def, Option.some.injEq,
              Prod.mk.injEq] at h
            rw [← h.1, ← h.2]
            exact ⟨insert_avl_of_eq hl m1 i1 nk nv hm1 hi, b2⟩
    · simp only [c, if_false] at h
      rcases hs : split ops l k incl with _ | ⟨l1, l2⟩
      · simp [hs] at h
      · obtain ⟨b1, b2⟩ := ihl a4 l1 l2 hs
        simp only [hs, Option.some_bind] at h
        rcases hm : merge l2 r with _ | m2
        · simp [hm] at h
        · have hm2 := merge_avl_of_eq l2 r m2 b2 a5 hm
          simp only [hm, Option.some_bind] at h
          rcases hid : ops.identical nk k with _ | same
          · simp [hid] at h
          · simp only [hid, Option.some_bind] at h
            by_cases hc : (!same || incl) = true
            · simp only [hc, if_true] at h
              rcases hi : insert ops m2 nk nv with _ | i2
              · simp [hi] at h
              · simp only [hi, Option.some_bind, Option.pure_def, Option.some.injEq,
                  Prod.mk.injEq] at h
                rw [← h.1, ← h.2]
                exact ⟨b1, insert_avl_of_eq hl m2 i2 nk nv hm2 hi⟩
            · simp only [hc, Bool.false_eq_true, if_false, Option.pure_def, Option.some.injEq,
                Prod.mk.injEq] at h
              rw [← h.1, ← h.2]
              exact ⟨b1, hm2⟩

theorem applyOp_avl_of_eq {ops : Comparable K} (hl : Lawful ops) (t t' : node K V)
    (o : TreeOp K V) (ha : Avl t) (h : applyOp ops t o = some t') : Avl t' := by
  cases o with
  | set k v => exact insert_avl_of_eq hl t t' k v ha h
  | delete k =>
    simp only [applyOp] at h
    rcases t with _ | ⟨nk, nv, hh, l, r⟩
    · simp only [remove, Option.some.injEq] at h
      rw [← h]; trivial
    · simp only [remove, Option.bind_eq_bind] at h
      rcases hs : split ops (.mk nk nv hh l r) k false with _ | ⟨t1, t2⟩
      · simp [hs] at h
      · obtain ⟨b1, b2⟩ := split_avl_of_eq hl _ k false ha t1 t2 hs
        simp only [hs, Option.some_bind] at h
        exact merge_avl_of_eq t1 t2 t' b1 b2 h

theorem foldlM_avl_of_eq {ops : Comparable K} (hl : Lawful ops) (os : List (TreeOp K V))
    (t t' : node K V) (ha : Avl t) (h : os.foldlM (applyOp ops) t = some t') : Avl t' := by
  induction os generalizing t with
  | nil =>
    simp only [List.foldlM_nil, Option.pure_def, Option.some.injEq] at h
    rw [← h]; exact ha
  | cons o os ih =>
    simp only [List.foldlM_cons, Option.bind_eq_bind] at h
    rcases ho : applyOp ops t o with _ | t1
    · simp [ho] at h
    · simp only [ho, Option.some_bind] at h
      exact ih t1 (applyOp_avl_of_eq hl t t1 o ha ho) h

/-- Every tree reached from the empty tree by `insert` and `remove` satisfies
height consistency and AVL balance, and so the height bound. -/
theorem runOps_height_logarithmic {ops : Comparable K} (hl : Lawful ops)
    (os : List (TreeOp K V)) (t : node K V) (h : runOps ops os = some t) :
    HeightConsistent t ∧ AVLBalanced t ∧ 2 ^ height t ≤ (size t + 1) ^ 2 := by
  have ha : Avl t := foldlM_avl_of_eq hl os .nil t trivial h
  exact ⟨((avl_iff t).1 ha).1, ((avl_iff t).1 ha).2, two_pow_height_le t ha⟩

/-- When `==` on the keys agrees with the comparison, `split` is correct: the
first tree holds the entries whose key compares less than `k`, the second the
entries whose key compares greater, and both satisfy the invariants. -/
theorem split_correct_of_identityAgrees {ops : Comparable K} (hl : Lawful ops)
    (hi : IdentityAgrees ops) (t : node K V) (k : K) (hb : BST ops t)
    (hh : HeightConsistent t) (ha : AVLBalanced t) :
    ∃ t1 t2, split ops t k false = some (t1, t2) ∧
      inOrderSlice t1 [] = (inOrderSlice t []).filter (fun e => decide (ops.cmp e.Key k < 0)) ∧
      inOrderSlice t2 [] = (inOrderSlice t []).filter (fun e => decide (0 < ops.cmp e.Key k)) ∧
      (BST ops t1 ∧ HeightConsistent t1 ∧ AVLBalanced t1) ∧
      (BST ops t2 ∧ HeightConsistent t2 ∧ AVLBalanced t2) := by
  obtain ⟨t1, t2, e1, e2, e3, e4, e5⟩ :=
    split_spec hl hi.identityOK t k false hb ((avl_iff t).2 ⟨hh, ha⟩)
  have hs := (bst_iff_increasing hl t).1 hb
  have h2 : (entries t).filter (keptAbove ops k false) =
      (entries t).filter (fun e => decide (0 < ops.cmp e.Key k)) :=
    List.filter_congr (fun e _ => by
      simp only [keptAbove, hi e.Key k, Bool.or_false]
      by_cases c : ops.cmp e.Key k < 0
      · have c0 : ¬ ops.cmp e.Key k = 0 := by omega
        have c1 : ¬ 0 < ops.cmp e.Key k := by omega
        simp [c, c0, c1]
      · by_cases c0 : ops.cmp e.Key k = 0
        · have c1 : ¬ 0 < ops.cmp e.Key k := by omega
          simp [c, c0, c1]
        · have c1 : 0 < ops.cmp e.Key k := by omega
          simp [c, c0, c1])
  simp only [inOrderSlice_eq, List.nil_append]
  refine ⟨t1, t2, e1, e4, by rw [e5, h2], ⟨?_, ((avl_iff t1).1 e2).1, ((avl_iff t1).1 e2).2⟩,
    ⟨?_, ((avl_iff t2).1 e3).1, ((avl_iff t2).1 e3).2⟩⟩
  · rw [bst_iff_increasing hl, e4]
    exact List.Pairwise.sublist (List.filter_sublist _) hs
  · rw [bst_iff_increasing hl, e5]
    exact List.Pairwise.sublist (List.filter_sublist _) hs

/-! ## The container and the channel -/

theorem Set_returns_same_map {A : Type} [Inhabited V] (T : KeyType A) (sm sm' : SortedMap A V)
    (key : A) (h : SortedMap.Set T sm key = some sm') : sm' = sm := by
  simp only [SortedMap.Set, Option.bind_eq_bind, Option.bind_eq_some, Option.pure_def,
    Option.some.injEq] at h
  obtain ⟨_, _, _, _, h⟩ := h
  exact h.symm

theorem identical_wrapped {A : Type} (T : KeyType A) (comp : Option (Comparator A))
    (a b : A) : (keyOps T comp).identical (.wrapped a) (.wrapped b) = none := rfl

/-- With a comparator, `Delete` of the one key of a map panics in `split`:
both operands of `n.key != k` are `comparableWrapper` values. -/
theorem Delete_panics_with_comparator :
    SortedMap.Delete intType
      ({ tree := .mk (.wrapped 1) "a" 1 .nil .nil, comp := some wrapperComparator } :
        SortedMap Int String) 1 = none := by
  simp [SortedMap.Delete, SortedMap.makeKeyComparable, remove, split, merge_nil_left, keyOps,
    comparableWrapper.CompareTo, wrapperComparator, wrapInt_zero]

theorem rangeLoop_inOrderChan_append (t : node K V) (rest : List (ChanOp K V)) :
    rangeLoop (inOrderChan t ++ rest) = (rangeLoop rest).map (fun es => entries t ++ es) := by
  induction t generalizing rest with
  | nil => simp [inOrderChan, entries]
  | mk k v h l r ihl ihr =>
    simp only [inOrderChan, entries]
    rw [List.append_assoc, List.cons_append, ihl, rangeLoop, ihr, Option.map_map, Option.map_map]
    congr 1
    funext es
    simp

theorem sent_inOrderChan_append (t : node K V) (rest : List (ChanOp K V)) :
    sent (inOrderChan t ++ rest) = entries t ++ sent rest := by
  induction t generalizing rest with
  | nil => simp [inOrderChan, entries]
  | mk k v h l r ihl ihr =>
    simp only [inOrderChan, entries]
    rw [List.append_assoc, List.cons_append, ihl, sent, ihr]
    simp

/-! ## The claims -/

/-- C1: `Set` stores nothing.  On a new map built with any comparator, `Set`
of a key returns the map unchanged (its tree is still empty), and `Get` of the
same key afterwards reports the key absent. -/
theorem Set_then_Get_absent {A : Type} [Inhabited V] (T : KeyType A) (comp : Comparator A)
    (key : A) :
    SortedMap.Set T (NewSortedMap (some comp) : SortedMap A V) key
        = some (NewSortedMap (some comp)) ∧
      (SortedMap.Set T (NewSortedMap (some comp) : SortedMap A V) key).bind
        (fun sm => SortedMap.Get T sm key) = some (default, false) := by
  constructor <;> rfl

/-- C2: on a tree in BST order under a lawful comparison, `insert` returns a
tree in which the inserted key is found with the new value and every key that
does not compare equal to it is found exactly as before. -/
theorem find_insert [Inhabited V] {ops : Comparable K} (hl : Lawful ops) (t : node K V)
    (k k' : K) (v : V) (hb : BST ops t) :
    ∃ t', insert ops t k v = some t' ∧
      (ops.cmp k' k = 0 → find ops t' k' = some (v, true)) ∧
      (ops.cmp k' k ≠ 0 → ∃ r, find ops t k' = some r ∧ find ops t' k' = some r) := by
  obtain ⟨t', e1, e2⟩ := lookup_after_insert hl t k k' v hb
  refine ⟨t', e1, ?_, ?_⟩
  · intro h0
    rw [e2, if_pos h0]
  · intro h0
    refine ⟨_, find_eq_lookup hl t k' hb, ?_⟩
    rw [e2, if_neg h0]

theorem find_insert_witness :
    BST intKey (node.mk 5 "five" 2 (node.mk 3 "three" 1 .nil .nil) .nil) ∧
    ∃ t', insert intKey (node.mk 5 "five" 2 (node.mk 3 "three" 1 .nil .nil) .nil) 4 "four"
        = some t' ∧
      (intKey.cmp 3 4 = 0 → find intKey t' 3 = some ("four", true)) ∧
      (intKey.cmp 3 4 ≠ 0 → ∃ r, find intKey
        (node.mk 5 "five" 2 (node.mk 3 "three" 1 .nil .nil) .nil) 3 = some r ∧
        find intKey t' 3 = some r) :=
  ⟨by decide, find_insert intKey_lawful _ 4 3 "four" (by decide)⟩

/-- C3: `remove` keeps a stored key that compares equal to the removed key but
is not `==` to it.  The one-node tree below satisfies the invariants, the key
`(1, 1)` compares equal to the stored key `(1, 0)`, and `remove` returns the
tree unchanged, so the key is still found and the tree has as many entries as
before. -/
theorem remove_keeps_compare_equal_key :
    Lawful taggedKey ∧
    (BST taggedKey (node.mk (1, 0) "a" 1 .nil .nil) ∧
      HeightConsistent (node.mk ((1, 0) : Int × Int) "a" 1 .nil .nil) ∧
      AVLBalanced (node.mk ((1, 0) : Int × Int) "a" 1 .nil .nil)) ∧
    taggedKey.cmp (1, 1) (1, 0) = 0 ∧
    remove taggedKey (node.mk (1, 0) "a" 1 .nil .nil) (1, 1)
      = some (node.mk (1, 0) "a" 1 .nil .nil) ∧
    (remove taggedKey (node.mk (1, 0) "a" 1 .nil .nil) (1, 1)).bind
      (fun t => find taggedKey t (1, 1)) = some ("a", true) ∧
    (remove taggedKey (node.mk (1, 0) "a" 1 .nil .nil) (1, 1)).map size
      = some (size (node.mk ((1, 0) : Int × Int) "a" 1 .nil .nil)) := by
  have h : remove taggedKey (node.mk (1, 0) "a" 1 .nil .nil) (1, 1)
      = some (node.mk (1, 0) "a" 1 .nil .nil) := by
    simp [remove, split, merge_nil_left, taggedKey, insert, balance, fixHeight]
  refine ⟨taggedKey_lawful, by decide, by decide, h, ?_, ?_⟩
  · rw [h]; decide
  · rw [h]; rfl

/-- C4: `insert` preserves the tree invariants.  On a tree that satisfies BST
order, key uniqueness, height consistency and AVL balance, `insert` returns a
tree that satisfies all four, and whose in-order traversal has strictly
increasing keys. -/
theorem insert_preserves_invariants {ops : Comparable K} (hl : Lawful ops) (t : node K V)
    (k : K) (v : V) (hb : BST ops t) (_hu : KeyUnique ops t) (hh : HeightConsistent t)
    (ha : AVLBalanced t) :
    ∃ t', insert ops t k v = some t' ∧ BST ops t' ∧ KeyUnique ops t' ∧
      HeightConsistent t' ∧ AVLBalanced t' ∧ StrictlyIncreasing ops (inOrderSlice t' []) := by
  obtain ⟨t', e1, e2, _⟩ := insert_bst hl t k v hb
  obtain ⟨t'', f1, f2, _⟩ := insert_avl hl t k v ((avl_iff t).2 ⟨hh, ha⟩)
  rw [e1] at f1
  cases f1
  have hs := (bst_iff_increasing hl t').1 e2
  refine ⟨t', e1, e2, increasing_keyUnique t' hs, ((avl_iff t').1 f2).1,
    ((avl_iff t').1 f2).2, ?_⟩
  rw [inOrderSlice_eq, List.nil_append]
  exact hs

theorem insert_preserves_invariants_witness :
    BST intKey (node.mk 5 "five" 2 (node.mk 3 "three" 1 .nil .nil) .nil) ∧
    KeyUnique intKey (node.mk 5 "five" 2 (node.mk 3 "three" 1 .nil .nil) .nil) ∧
    HeightConsistent (node.mk 5 "five" 2 (node.mk 3 "three" 1 .nil .nil) .nil) ∧
    AVLBalanced (node.mk 5 "five" 2 (node.mk 3 "three" 1 .nil .nil) .nil) ∧
    ∃ t', insert intKey (node.mk 5 "five" 2 (node.mk 3 "three" 1 .nil .nil) .nil) 1 "one"
        = some t' ∧ BST intKey t' ∧ KeyUnique intKey t' ∧
      HeightConsistent t' ∧ AVLBalanced t' ∧ StrictlyIncreasing intKey (inOrderSlice t' []) :=
  ⟨by decide, by decide, by decide, by decide,
    insert_preserves_invariants intKey_lawful _ 1 "one" (by decide) (by decide) (by decide)
      (by decide)⟩

/-- C5: `remove` panics on keys that Go cannot compare with `==`.  The
one-node tree below satisfies the four invariants under a lawful comparison,
and `remove` of its key returns no tree. -/
theorem remove_panics_on_uncomparable_key :
    Lawful uncomparableKey ∧
    (BST uncomparableKey (node.mk 1 "a" 1 .nil .nil) ∧
      KeyUnique uncomparableKey (node.mk 1 "a" 1 .nil .nil) ∧
      HeightConsistent (node.mk (1 : Int) "a" 1 .nil .nil) ∧
      AVLBalanced (node.mk (1 : Int) "a" 1 .nil .nil)) ∧
    split uncomparableKey (node.mk 1 "a" 1 .nil .nil) 1 false = none ∧
    remove uncomparableKey (node.mk 1 "a" 1 .nil .nil) 1 = none := by
  refine ⟨uncomparableKey_lawful, by decide, ?_, ?_⟩
  · simp [split, merge_nil_left, uncomparableKey]
  · simp [remove, split, merge_nil_left, uncomparableKey]

/-- C6: the tree diverges from the reference map.  On keys that Go cannot
compare with `==`, setting key `1` and then deleting it panics in `remove`,
while the reference map ends empty. -/
theorem runOps_diverges_from_reference :
    Lawful uncomparableKey ∧
    runOps uncomparableKey [TreeOp.set 1 "a", TreeOp.delete 1] = none ∧
    refRun uncomparableKey [TreeOp.set 1 "a", TreeOp.delete 1] = [] ∧
    refLookup uncomparableKey (refRun uncomparableKey [TreeOp.set 1 "a", TreeOp.delete 1]) 1
      = ("", false) := by
  refine ⟨uncomparableKey_lawful, ?_, by decide, by decide⟩
  simp [runOps, applyOp, insert, remove, split, merge_nil_left, uncomparableKey]

/-- C8: update semantics.  On a tree that satisfies the BST and AVL invariants
(BST order, height consistency, AVL balance) and already holds a key comparing
equal to `k`, `insert` returns a tree with
the same shape, keys and stored heights, whose entries are those of the old
tree with the value at that key replaced; the number of entries is unchanged
and the key is found with the new value. -/
theorem insert_existing_key [Inhabited V] {ops : Comparable K} (hl : Lawful ops)
    (t : node K V) (k : K) (v2 : V) (hb : BST ops t) (hh : HeightConsistent t)
    (ha : AVLBalanced t) (hk : ∃ e ∈ inOrderSlice t [], ops.cmp k e.Key = 0) :
    ∃ t', insert ops t k v2 = some t' ∧ shape t' = shape t ∧
      inOrderSlice t' [] =
        (inOrderSlice t []).map (fun e => if ops.cmp k e.Key = 0 then ⟨e.Key, v2⟩ else e) ∧
      size t' = size t ∧ find ops t' k = some (v2, true) := by
  simp only [inOrderSlice_eq, List.nil_append] at hk ⊢
  obtain ⟨t', e1, _, e3, _, e5⟩ := insert_update hl t k v2 hb ((avl_iff t).2 ⟨hh, ha⟩) hk
  obtain ⟨t'', f1, f2⟩ := lookup_after_insert hl t k k v2 hb
  rw [e1] at f1
  cases f1
  refine ⟨t', e1, e3, e5, ?_, ?_⟩
  · rw [size_eq_length, size_eq_length, e5, List.length_map]
  · rw [f2, if_pos (hl.cmp_self k)]

theorem insert_existing_key_witness :
    (BST intKey (node.mk 5 "five" 2 (node.mk 3 "three" 1 .nil .nil) .nil) ∧
      HeightConsistent (node.mk 5 "five" 2 (node.mk 3 "three" 1 .nil .nil) .nil) ∧
      AVLBalanced (node.mk 5 "five" 2 (node.mk 3 "three" 1 .nil .nil) .nil) ∧
      ∃ e ∈ inOrderSlice (node.mk 5 "five" 2 (node.mk 3 "three" 1 .nil .nil) .nil) [],
        intKey.cmp 3 e.Key = 0) ∧
    ∃ t', insert intKey (node.mk 5 "five" 2 (node.mk 3 "three" 1 .nil .nil) .nil) 3 "drei"
        = some t' ∧
      shape t' = shape (node.mk 5 "five" 2 (node.mk 3 "three" 1 .nil .nil) .nil) ∧
      inOrderSlice t' [] =
        (inOrderSlice (node.mk 5 "five" 2 (node.mk 3 "three" 1 .nil .nil) .nil) []).map
          (fun e => if intKey.cmp 3 e.Key = 0 then ⟨e.Key, "drei"⟩ else e) ∧
      size t' = size (node.mk 5 "five" 2 (node.mk 3 "three" 1 .nil .nil) .nil) ∧
      find intKey t' 3 = some ("drei", true) :=
  ⟨⟨by decide, by decide, by decide, by decide⟩,
    insert_existing_key intKey_lawful _ 3 "drei" (by decide) (by decide) (by decide)
      (by decide)⟩

/-- C9: `remove` of an absent key panics on keys that Go cannot compare with
`==`.  The one-node tree below satisfies the invariants, the key `0` compares
equal to no key of the tree, and `remove` returns no tree. -/
theorem remove_absent_panics_on_uncomparable_key :
    Lawful uncomparableKey ∧
    (BST uncomparableKey (node.mk 1 "a" 1 .nil .nil) ∧
      HeightConsistent (node.mk (1 : Int) "a" 1 .nil .nil) ∧
      AVLBalanced (node.mk (1 : Int) "a" 1 .nil .nil)) ∧
    (∀ e ∈ inOrderSlice (node.mk (1 : Int) "a" 1 .nil .nil) [],
      uncomparableKey.cmp 0 e.Key ≠ 0) ∧
    remove uncomparableKey (node.mk 1 "a" 1 .nil .nil) 0 = none := by
  refine ⟨uncomparableKey_lawful, by decide, by decide, ?_⟩
  simp [remove, split, merge_nil_left, uncomparableKey]

/-- C10: the channel of `AsChan` is never closed.  For every map, the entries
sent on the channel are exactly the sequence `AsSlice` returns, in the same
order, but a consumer that drains the channel with a range loop never
finishes. -/
theorem AsChan_range_never_finishes {A : Type} (sm : SortedMap A V) :
    sent sm.AsChan = sm.AsSlice ∧ rangeLoop sm.AsChan = none := by
  constructor
  · have := sent_inOrderChan_append sm.tree []
    simpa [SortedMap.AsChan, SortedMap.AsSlice, inOrderSlice_eq, sent] using this
  · have := rangeLoop_inOrderChan_append sm.tree []
    simpa [SortedMap.AsChan, rangeLoop] using this

/-- C11: the element count does not follow `Set`.  A new map has count 0, and
after `Set` of a key that was absent the count is still 0: the tree of the map
returned has no node. -/
theorem Len_after_Set_is_zero {A : Type} [Inhabited V] (T : KeyType A) (comp : Comparator A)
    (key : A) :
    (NewSortedMap (some comp) : SortedMap A V).Len = 0 ∧
      SortedMap.Get T (NewSortedMap (some comp) : SortedMap A V) key = some (default, false) ∧
      (SortedMap.Set T (NewSortedMap (some comp) : SortedMap A V) key).map SortedMap.Len
        = some 0 := by
  refine ⟨rfl, rfl, rfl⟩

/-- C12: ordering-capability violation.  In a map with a nil comparator, for a
key whose type does not implement `Comparable`, `makeKeyComparable` panics and
so do `Get`, `Set` and `Delete`, whatever the tree holds: no comparison is
made and no new map is produced.  With a comparator, or for a key that
implements `Comparable`, `makeKeyComparable` returns a key. -/
theorem ordering_capability_violation {A : Type} [Inhabited V] (T : KeyType A)
    (sm : SortedMap A V) (key : A) :
    (sm.comp = none → T.CompareTo key = none →
      sm.makeKeyComparable T key = none ∧ sm.Get T key = none ∧ sm.Set T key = none ∧
        sm.Delete T key = none) ∧
    (sm.comp ≠ none ∨ T.CompareTo key ≠ none → ∃ k, sm.makeKeyComparable T key = some k) := by
  constructor
  · intro h1 h2
    have hk : sm.makeKeyComparable T key = none := by
      simp only [SortedMap.makeKeyComparable, h1, h2]
    refine ⟨hk, ?_, ?_, ?_⟩
    · simp only [SortedMap.Get, hk, Option.bind_eq_bind, Option.none_bind]
    · simp only [SortedMap.Set, hk, Option.bind_eq_bind, Option.none_bind]
    · simp only [SortedMap.Delete, hk, Option.bind_eq_bind, Option.none_bind]
  · intro h
    simp only [SortedMap.makeKeyComparable]
    rcases hc : sm.comp with _ | c
    · rcases hm : T.CompareTo key with _ | m
      · rcases h with h | h
        · exact absurd hc h
        · exact absurd hm h
      · exact ⟨_, rfl⟩
    · exact ⟨_, rfl⟩

theorem ordering_capability_violation_witness :
    (({ tree := .mk (.raw 5) "e" 1 .nil .nil, comp := none } : SortedMap Int String).comp
        = none ∧ intType.CompareTo 1 = none) ∧
    (SortedMap.makeKeyComparable intType
        ({ tree := .mk (.raw 5) "e" 1 .nil .nil, comp := none } : SortedMap Int String) 1
        = none ∧
      SortedMap.Get intType
        ({ tree := .mk (.raw 5) "e" 1 .nil .nil, comp := none } : SortedMap Int String) 1
        = none ∧
      SortedMap.Set intType
        ({ tree := .mk (.raw 5) "e" 1 .nil .nil, comp := none } : SortedMap Int String) 1
        = none ∧
      SortedMap.Delete intType
        ({ tree := .mk (.raw 5) "e" 1 .nil .nil, comp := none } : SortedMap Int String) 1
        = none) ∧
    ∃ k, SortedMap.makeKeyComparable intType
      ({ tree := .nil, comp := some intComparator } : SortedMap Int String) 1 = some k :=
  ⟨⟨rfl, rfl⟩,
    (ordering_capability_violation intType
      ({ tree := .mk (.raw 5) "e" 1 .nil .nil, comp := none } : SortedMap Int String) 1).1
      rfl rfl,
    (ordering_capability_violation intType
      ({ tree := .nil, comp := some intComparator } : SortedMap Int String) 1).2
      (Or.inl (by simp))⟩

/-- C13: logarithmic height.  A tree that satisfies height consistency and
AVL balance, with `n` nodes and root height `h`, has `2 ^ h ≤ (n + 1) ^ 2`. -/
theorem height_logarithmic (t : node K V) (hh : HeightConsistent t) (ha : AVLBalanced t) :
    2 ^ height t ≤ (size t + 1) ^ 2 :=
  two_pow_height_le t ((avl_iff t).2 ⟨hh, ha⟩)

theorem height_logarithmic_witness :
    (HeightConsistent treeThreeToSeven ∧ AVLBalanced treeThreeToSeven) ∧
    2 ^ height treeThreeToSeven ≤ (size treeThreeToSeven + 1) ^ 2 :=
  ⟨by decide, height_logarithmic treeThreeToSeven (by decide) (by decide)⟩

/-- C14: `merge` is correct.  For trees `l` and `r` that satisfy BST order,
height consistency and AVL balance, with every key of `l` comparing less than
every key of `r`, `merge` returns a tree that satisfies the three invariants
and whose in-order entries are those of `l` followed by those of `r`; merging
with the empty tree returns the other tree. -/
theorem merge_correct {ops : Comparable K} (hl : Lawful ops) (l r : node K V)
    (hbl : BST ops l) (hhl : HeightConsistent l) (hal : AVLBalanced l)
    (hbr : BST ops r) (hhr : HeightConsistent r) (har : AVLBalanced r)
    (hlt : ∀ a ∈ inOrderSlice l [], ∀ b ∈ inOrderSlice r [], ops.cmp a.Key b.Key < 0) :
    (∃ t, merge l r = some t ∧ BST ops t ∧ HeightConsistent t ∧ AVLBalanced t ∧
      inOrderSlice t [] = inOrderSlice l [] ++ inOrderSlice r []) ∧
    merge .nil r = some r ∧ merge l .nil = some l := by
  refine ⟨?_, merge_nil_left r, merge_nil_right l⟩
  obtain ⟨t, e1, e2, e3, _, _⟩ :=
    merge_spec l r ((avl_iff l).2 ⟨hhl, hal⟩) ((avl_iff r).2 ⟨hhr, har⟩)
  simp only [inOrderSlice_eq, List.nil_append] at hlt ⊢
  refine ⟨t, e1, ?_, ((avl_iff t).1 e2).1, ((avl_iff t).1 e2).2, e3⟩
  rw [bst_iff_increasing hl, e3]
  exact List.pairwise_append.2
    ⟨(bst_iff_increasing hl l).1 hbl, (bst_iff_increasing hl r).1 hbr, hlt⟩

theorem merge_correct_witness :
    (BST intKey leafOne ∧ HeightConsistent leafOne ∧ AVLBalanced leafOne ∧
      BST intKey treeThreeToSeven ∧ HeightConsistent treeThreeToSeven ∧
      AVLBalanced treeThreeToSeven ∧
      ∀ a ∈ inOrderSlice leafOne [], ∀ b ∈ inOrderSlice treeThreeToSeven [],
        intKey.cmp a.Key b.Key < 0) ∧
    (∃ t, merge leafOne treeThreeToSeven = some t ∧ BST intKey t ∧ HeightConsistent t ∧
      AVLBalanced t ∧
      inOrderSlice t [] = inOrderSlice leafOne [] ++ inOrderSlice treeThreeToSeven []) ∧
    merge .nil treeThreeToSeven = some treeThreeToSeven ∧ merge leafOne .nil = some leafOne :=
  ⟨by decide, merge_correct intKey_lawful leafOne treeThreeToSeven (by decide) (by decide)
    (by decide) (by decide) (by decide) (by decide) (by decide)⟩

/-- C15: `split` keeps an entry whose key compares equal to `k`.  The one-node
tree below satisfies the invariants, the key `(1, 1)` compares equal to the
stored key `(1, 0)`, and the second tree that `split` returns still holds that
entry. -/
theorem split_keeps_compare_equal_key :
    Lawful taggedKey ∧
    (BST taggedKey (node.mk (1, 0) "a" 1 .nil .nil) ∧
      HeightConsistent (node.mk ((1, 0) : Int × Int) "a" 1 .nil .nil) ∧
      AVLBalanced (node.mk ((1, 0) : Int × Int) "a" 1 .nil .nil)) ∧
    taggedKey.cmp (1, 0) (1, 1) = 0 ∧
    split taggedKey (node.mk (1, 0) "a" 1 .nil .nil) (1, 1) false
      = some (.nil, node.mk (1, 0) "a" 1 .nil .nil) ∧
    split uncomparableKey (node.mk 1 "a" 1 .nil .nil) 1 false = none := by
  refine ⟨taggedKey_lawful, by decide, by decide, ?_, ?_⟩
  · simp [split, merge_nil_left, taggedKey, insert, balance, fixHeight]
  · simp [split, merge_nil_left, uncomparableKey]

/-- C16: `balance` restores the AVL property.  On a node whose two subtrees
each satisfy height consistency and AVL balance and whose child heights differ
by at most 2, `balance` returns a tree that satisfies height consistency and
AVL balance at every node and has the same in-order entries; when the child
heights differ by at most 1 the result is the node itself with its height
refreshed. -/
theorem balance_restores_avl (k : K) (v : V) (h : Nat) (l r : node K V)
    (hhl : HeightConsistent l) (hal : AVLBalanced l) (hhr : HeightConsistent r)
    (har : AVLBalanced r) (h1 : height l ≤ height r + 2) (h2 : height r ≤ height l + 2) :
    ∃ t, balance (.mk k v h l r) = some t ∧ HeightConsistent t ∧ AVLBalanced t ∧
      inOrderSlice t [] = inOrderSlice (.mk k v h l r) [] ∧
      (height l ≤ height r + 1 → height r ≤ height l + 1 →
        t = fixHeight (.mk k v h l r) ∧
          t = .mk k v (1 + max (height l) (height r)) l r) := by
  obtain ⟨t, b1, b2, b3, _, _, b6⟩ :=
    balance_spec k v h l r ((avl_iff l).2 ⟨hhl, hal⟩) ((avl_iff r).2 ⟨hhr, har⟩) h1 h2
  refine ⟨t, b1, ((avl_iff t).1 b2).1, ((avl_iff t).1 b2).2, ?_, ?_⟩
  · simp only [inOrderSlice_eq, List.nil_append, b3, entries]
  · intro c1 c2
    rw [fixHeight_mk]
    exact ⟨b6 c1 c2, b6 c1 c2⟩

theorem balance_restores_avl_witness :
    (HeightConsistent leafOne ∧ AVLBalanced leafOne ∧ HeightConsistent treeThreeToSeven ∧
      AVLBalanced treeThreeToSeven ∧ height leafOne ≤ height treeThreeToSeven + 2 ∧
      height treeThreeToSeven ≤ height leafOne + 2) ∧
    ∃ t, balance (.mk 2 "b" 0 leafOne treeThreeToSeven) = some t ∧
      HeightConsistent t ∧ AVLBalanced t ∧
      inOrderSlice t [] = inOrderSlice (.mk 2 "b" 0 leafOne treeThreeToSeven) [] ∧
      (height leafOne ≤ height treeThreeToSeven + 1 →
        height treeThreeToSeven ≤ height leafOne + 1 →
        t = fixHeight (.mk 2 "b" 0 leafOne treeThreeToSeven) ∧
          t = .mk 2 "b" (1 + max (height leafOne) (height treeThreeToSeven)) leafOne
            treeThreeToSeven) :=
  ⟨by decide, balance_restores_avl 2 "b" 0 leafOne treeThreeToSeven (by decide) (by decide)
    (by decide) (by decide) (by decide) (by decide)⟩

/-- C17: the height of a merge.  For trees that satisfy height consistency and
AVL balance, `merge` returns a tree whose height is at least the larger of the
two heights and at most one more. -/
theorem merge_height_bound (l r : node K V) (hhl : HeightConsistent l) (hal : AVLBalanced l)
    (hhr : HeightConsistent r) (har : AVLBalanced r) :
    ∃ t, merge l r = some t ∧ max (height l) (height r) ≤ height t ∧
      height t ≤ max (height l) (height r) + 1 := by
  obtain ⟨t, e1, _, _, e4, e5⟩ :=
    merge_spec l r ((avl_iff l).2 ⟨hhl, hal⟩) ((avl_iff r).2 ⟨hhr, har⟩)
  exact ⟨t, e1, e4, e5⟩

theorem merge_height_bound_witness :
    (HeightConsistent leafOne ∧ AVLBalanced leafOne ∧ HeightConsistent treeThreeToSeven ∧
      AVLBalanced treeThreeToSeven) ∧
    ∃ t, merge leafOne treeThreeToSeven = some t ∧
      max (height leafOne) (height treeThreeToSeven) ≤ height t ∧
      height t ≤ max (height leafOne) (height treeThreeToSeven) + 1 :=
  ⟨by decide, merge_height_bound leafOne treeThreeToSeven (by decide) (by decide) (by decide)
    (by decide)⟩

/-- C18: minimum extraction.  On a non-empty tree that satisfies BST order,
height consistency and AVL balance, `findMin` returns the node that holds the
first in-order entry, whose key compares less than every other key, and
`removeMin` returns a tree that satisfies the same invariants, whose in-order
entries are those of the tree without the first, and whose height is that of
the tree or one less. -/
theorem min_extraction {ops : Comparable K} (hl : Lawful ops) (t : node K V)
    (hne : t ≠ .nil) (hb : BST ops t) (hh : HeightConsistent t) (ha : AVLBalanced t) :
    ∃ mk mv mh ml mr t', findMin t = some (.mk mk mv mh ml mr) ∧
      (inOrderSlice t []).head? = some ⟨mk, mv⟩ ∧
      removeMin t = some t' ∧ BST ops t' ∧ HeightConsistent t' ∧ AVLBalanced t' ∧
      inOrderSlice t' [] = (inOrderSlice t []).tail ∧
      (∀ e ∈ inOrderSlice t' [], ops.cmp mk e.Key < 0) ∧
      (height t' = height t ∨ height t' + 1 = height t) := by
  obtain ⟨mk, mv, mh, mr, t', e1, e2, e3, e4, e5⟩ :=
    min_spec t ((avl_iff t).2 ⟨hh, ha⟩) hne
  have hs := (bst_iff_increasing hl t).1 hb
  rw [e3] at hs
  unfold StrictlyIncreasing at hs
  rw [List.pairwise_cons] at hs
  simp only [inOrderSlice_eq, List.nil_append, e3, List.head?_cons, List.tail_cons]
  refine ⟨mk, mv, mh, .nil, mr, t', e1, rfl, e2, ?_, ((avl_iff t').1 e4).1,
    ((avl_iff t').1 e4).2, rfl, hs.1, e5⟩
  rw [bst_iff_increasing hl]
  exact hs.2

theorem min_extraction_witness :
    (treeThreeToSeven ≠ .nil ∧ BST intKey treeThreeToSeven ∧
      HeightConsistent treeThreeToSeven ∧ AVLBalanced treeThreeToSeven) ∧
    ∃ mk mv mh ml mr t', findMin treeThreeToSeven = some (.mk mk mv mh ml mr) ∧
      (inOrderSlice treeThreeToSeven []).head? = some ⟨mk, mv⟩ ∧
      removeMin treeThreeToSeven = some t' ∧ BST intKey t' ∧ HeightConsistent t' ∧
      AVLBalanced t' ∧
      inOrderSlice t' [] = (inOrderSlice treeThreeToSeven []).tail ∧
      (∀ e ∈ inOrderSlice t' [], intKey.cmp mk e.Key < 0) ∧
      (height t' = height treeThreeToSeven ∨ height t' + 1 = height treeThreeToSeven) :=
  ⟨by decide, min_extraction intKey_lawful treeThreeToSeven (by decide) (by decide)
    (by decide) (by decide)⟩

/-- C19: rotations.  `rotateLeft` on a node with a non-nil right child keeps
the in-order entries, and leaves both touched nodes (the demoted node, then
the new root) with consistent heights when the three subtrees below them are
height-consistent; `rotateRight` does the same on a node with a non-nil left
child; and `rotateRight` undoes `rotateLeft` on a height-consistent node. -/
theorem rotations_spec (k : K) (v : V) (h : Nat) (a : node K V) (mk : K) (mv : V) (mh : Nat)
    (b c : node K V) :
    (∃ t, rotateLeft (.mk k v h a (.mk mk mv mh b c)) = some t ∧
      inOrderSlice t [] = inOrderSlice (.mk k v h a (.mk mk mv mh b c)) [] ∧
      (HeightConsistent a → HeightConsistent b → HeightConsistent c → HeightConsistent t) ∧
      (HeightConsistent (.mk k v h a (.mk mk mv mh b c)) →
        rotateRight t = some (.mk k v h a (.mk mk mv mh b c)))) ∧
    (∃ t, rotateRight (.mk k v h (.mk mk mv mh a b) c) = some t ∧
      inOrderSlice t [] = inOrderSlice (.mk k v h (.mk mk mv mh a b) c) [] ∧
      (HeightConsistent a → HeightConsistent b → HeightConsistent c → HeightConsistent t)) := by
  constructor
  · refine ⟨_, rotateLeft_mk k v h a mk mv mh b c, ?_, ?_, ?_⟩
    · simp [inOrderSlice_eq, entries]
    · intro ha hb hc
      simp only [HeightConsistent, height_mk]
      exact ⟨trivial, ⟨trivial, ha, hb⟩, hc⟩
    · intro hn
      simp only [HeightConsistent, height_mk] at hn
      obtain ⟨e1, _, e2, _, _⟩ := hn
      rw [rotateRight_mk, ← e2, ← e1]
  · refine ⟨_, rotateRight_mk k v h c mk mv mh a b, ?_, ?_⟩
    · simp [inOrderSlice_eq, entries]
    · intro ha hb hc
      simp only [HeightConsistent, height_mk]
      exact ⟨trivial, ha, trivial, hb, hc⟩

theorem rotations_spec_witness :
    ∃ t, rotateLeft (.mk 1 "a" 3 .nil (.mk 2 "b" 2 .nil (.mk (3 : Int) "c" 1 .nil .nil)))
        = some t ∧
      inOrderSlice t [] =
        inOrderSlice (.mk 1 "a" 3 .nil (.mk 2 "b" 2 .nil (.mk (3 : Int) "c" 1 .nil .nil))) [] ∧
      HeightConsistent t ∧
      rotateRight t = some (.mk 1 "a" 3 .nil (.mk 2 "b" 2 .nil (.mk (3 : Int) "c" 1 .nil .nil))) :=
  let ⟨⟨t, h1, h2, h3, h4⟩, _⟩ :=
    rotations_spec (1 : Int) "a" 3 .nil 2 "b" 2 .nil (.mk (3 : Int) "c" 1 .nil .nil)
  ⟨t, h1, h2, h3 (by decide) (by decide) (by decide), h4 (by decide)⟩

/-- C20: the comparator receives a wrapped key.  `CompareTo` of a wrapper
passes its own raw key and the other operand as it is, and the other operand
of every comparison in `find` and `split` is a `comparableWrapper`; with the
comparator of the tests, defined on `int` only, `Get` and `Delete` of a key
panic on a map that holds one key stored through `makeKeyComparable`. -/
theorem comparator_receives_wrapper :
    (∀ (A : Type) (T : KeyType A) (comp : Comparator A) (a b : A),
      (keyOps T (some comp)).CompareTo (.wrapped a) (.wrapped b)
        = comp (.raw a) (.wrapped b)) ∧
    intComparator (.raw 1) (.wrapped 1) = none ∧
    ((NewSortedMap (some intComparator) : SortedMap Int String).makeKeyComparable intType 1).bind
        (fun k => insert (keyOps intType (some intComparator)) .nil k "a")
      = some (.mk (.wrapped 1) "a" 1 .nil .nil) ∧
    SortedMap.Get intType
      ({ tree := .mk (.wrapped 1) "a" 1 .nil .nil, comp := some intComparator } :
        SortedMap Int String) 1 = none ∧
    SortedMap.Delete intType
      ({ tree := .mk (.wrapped 1) "a" 1 .nil .nil, comp := some intComparator } :
        SortedMap Int String) 1 = none := by
  refine ⟨fun _ _ _ _ _ => rfl, rfl, rfl, rfl, ?_⟩
  simp [SortedMap.Delete, SortedMap.makeKeyComparable, remove, split, keyOps,
    comparableWrapper.CompareTo, intComparator]

end gosortedmap
